import Mathlib

/-!
# The rename pipe of the log storage (`lib/logstorage/pipe_rename.go`)

A shallow embedding of `pipeRename`: its field-usage propagation
(`updateNeededFields`), its parser (`parsePipeRename`), its canonical string
form (`String`) and its processor (`writeBlock`, `flush`), together with the
properties stated for them.

Go slices are lists, the Go map used as a counter is a total function with
default `0`, mutation of the two field sets and of the lexer is explicit state
passing, and a run-time panic is the result `none`, or an error that carries
the value of the panic. Calls on the downstream processor are recorded as the
list of calls made.
The parser loop takes fuel, one unit for each clause; `none` there means that
the fuel ran out.
-/

namespace logstorage

/-! ## Field sets -/

/-- Modelled from the spec: the type `fieldsSet` is declared outside
`pipe_rename.go`. The spec describes it as a mutable set-like collection of
field names, a mapping from field name to presence, in which the reserved
name `"*"` may be present as a wildcard member. -/
abbrev fieldsSet := Finset String

/-- Modelled from the spec: the membership test of `fieldsSet`. The wildcard
member means "all fields", so every field name is contained in a set that
holds the wildcard. -/
def fieldsSet.contains (fs : fieldsSet) (field : String) : Bool :=
  decide (field ∈ fs) || decide ("*" ∈ fs)

/-- Modelled from the spec: `fieldsSet.add`, which makes one field name present. -/
def fieldsSet.add (fs : fieldsSet) (field : String) : fieldsSet :=
  insert field fs

/-- Modelled from the spec: `fieldsSet.remove`, which makes one field name
absent. -/
def fieldsSet.remove (fs : fieldsSet) (field : String) : fieldsSet :=
  fs.erase field

/-- Modelled from the spec: `fieldsSet.addAll`, the bulk form of `add`. -/
def fieldsSet.addAll (fs : fieldsSet) (fields : List String) : fieldsSet :=
  fields.foldl fieldsSet.add fs

/-- Modelled from the spec: `fieldsSet.removeAll`, the bulk form of `remove`. -/
def fieldsSet.removeAll (fs : fieldsSet) (fields : List String) : fieldsSet :=
  fields.foldl fieldsSet.remove fs

/-- Modelled from the spec: `fieldsSet.reset`, which clears the set entirely. -/
def fieldsSet.reset (_fs : fieldsSet) : fieldsSet :=
  ∅

/-! ## The rename specification -/

/-- The struct `pipeRename`: the source fields and, at the same positions,
their destination fields. -/
structure pipeRename where
  srcFields : List String
  dstFields : List String
  deriving DecidableEq, Repr

/-- First loop of `updateNeededFields`: walks `dstFields` from index `i` on and
increments `m[srcFields[i]]` for every destination that is needed and not
unneeded. Reading `srcFields[i]` past the end of the slice panics (`none`). -/
def countNeededSrc (srcFields : List String) (neededFields unneededFields : fieldsSet) :
    List String → Nat → (String → Nat) → Option (String → Nat)
  | [], _, m => some m
  | dstField :: rest, i, m =>
    if fieldsSet.contains neededFields dstField && !fieldsSet.contains unneededFields dstField then
      match srcFields[i]? with
      | none => none
      | some srcField =>
        countNeededSrc srcFields neededFields unneededFields rest (i + 1)
          (Function.update m srcField (m srcField + 1))
    else
      countNeededSrc srcFields neededFields unneededFields rest (i + 1) m

/-- Second loop of `updateNeededFields` (wildcard branch): every source field
with a positive count is removed from the unneeded fields. -/
def dropUsedSrc (m : String → Nat) (srcFields : List String) (unneededFields : fieldsSet) :
    fieldsSet :=
  srcFields.foldl
    (fun fs srcField => if m srcField > 0 then fieldsSet.remove fs srcField else fs)
    unneededFields

/-- Third loop of `updateNeededFields` (explicit branch): every source field
with a positive count is added to the needed fields, every other source field
is removed from them. -/
def moveNeededSrc (m : String → Nat) (srcFields : List String) (neededFields : fieldsSet) :
    fieldsSet :=
  srcFields.foldl
    (fun fs srcField =>
      if m srcField > 0 then fieldsSet.add fs srcField else fieldsSet.remove fs srcField)
    neededFields

/-- The method `pipeRename.updateNeededFields`. The two field sets are mutated
in place by the code; here the call returns their new values
`(neededFields, unneededFields)`, or `none` when the call panics. -/
def pipeRename.updateNeededFields (pr : pipeRename) (neededFields unneededFields : fieldsSet) :
    Option (fieldsSet × fieldsSet) :=
  match countNeededSrc pr.srcFields neededFields unneededFields pr.dstFields 0 (fun _ => 0) with
  | none => none
  | some m =>
    if fieldsSet.contains neededFields "*" then
      some (neededFields,
        dropUsedSrc m pr.srcFields (fieldsSet.addAll unneededFields pr.dstFields))
    else
      some (moveNeededSrc m pr.srcFields (fieldsSet.removeAll neededFields pr.dstFields),
        fieldsSet.reset unneededFields)

/-- A destination field counts for its source: it is needed and not unneeded. -/
def liveDst (neededFields unneededFields : fieldsSet) (dstField : String) : Prop :=
  fieldsSet.contains neededFields dstField = true ∧
    fieldsSet.contains unneededFields dstField = false

/-- Some pair `i` of the spec has source `srcField` and a destination that is
needed and not unneeded. -/
def pipeRename.liveSrc (pr : pipeRename) (neededFields unneededFields : fieldsSet)
    (srcField : String) : Prop :=
  ∃ (i : Nat) (dstField : String), pr.srcFields[i]? = some srcField ∧
    pr.dstFields[i]? = some dstField ∧ liveDst neededFields unneededFields dstField

/-! ## The token stream -/

/-- Modelled from the spec: a token as the lexer hands it out. The lexer is
declared outside `pipe_rename.go`; a token carries its text and whether it was
written as a quoted string, in which case it is never read as a keyword. -/
structure Token where
  text : String
  isQuoted : Bool
  deriving DecidableEq, Repr

/-- Modelled from the spec: the lexer, a token stream abstraction with a current
token, a keyword check and an advance. The stream is the list of the tokens
not yet consumed: its head is the current token, and the empty list is the
end of input, where the current token is the empty text. -/
abbrev lexer := List Token

/-- Modelled from the spec: the field `lexer.token`, the text of the current
token. -/
def lexer.token (lex : lexer) : String :=
  match lex with
  | [] => ""
  | t :: _ => t.text

/-- Modelled from the spec: `lexer.isKeyword`, the check of the current token
against a set of expected keywords. -/
def lexer.isKeyword (lex : lexer) (keywords : List String) : Bool :=
  match lex with
  | [] => keywords.contains ""
  | t :: _ => !t.isQuoted && keywords.contains t.text

/-- Modelled from the spec: `lexer.nextToken`, the advance to the next token. -/
def lexer.nextToken (lex : lexer) : lexer :=
  lex.tail

/-! ## The parser -/

/-- The errors `parsePipeRename` returns, one constructor for each
`fmt.Errorf` call: the text of the offending token, or the wrapped error of
the field-name parser. -/
inductive parseError where
  | expectingRenameOrMv (token : String)
  | cannotParseSrcField (err : String)
  | cannotParseDstField (err : String)
  | unexpectedToken (token : String)
  deriving DecidableEq, Repr

/-- The type of `parseFieldName`, which is declared outside
`pipe_rename.go` and is a parameter of the parser here: it reads a field
name at the current position and leaves the lexer advanced, or fails with an
error. -/
abbrev fieldNameParser := lexer → Except String (String × lexer)

/-- The `for` loop of `parsePipeRename`, with the pairs collected so far. One
unit of `fuel` is spent for each clause, and `none` means the fuel ran out. -/
def parsePipeRenameLoop (parseFieldName : fieldNameParser) :
    Nat → lexer → List String → List String → Option (Except parseError (pipeRename × lexer))
  | 0, _, _, _ => none
  | fuel + 1, lex, srcFields, dstFields =>
    let lex := lexer.nextToken lex
    match parseFieldName lex with
    | .error err => some (.error (.cannotParseSrcField err))
    | .ok (srcField, lex) =>
      let lex := if lexer.isKeyword lex ["as"] then lexer.nextToken lex else lex
      match parseFieldName lex with
      | .error err => some (.error (.cannotParseDstField err))
      | .ok (dstField, lex) =>
        let srcFields := srcFields ++ [srcField]
        let dstFields := dstFields ++ [dstField]
        if lexer.isKeyword lex ["|", ")", ""] then
          some (.ok (⟨srcFields, dstFields⟩, lex))
        else if lexer.isKeyword lex [","] then
          parsePipeRenameLoop parseFieldName fuel lex srcFields dstFields
        else
          some (.error (.unexpectedToken (lexer.token lex)))

/-- The function `parsePipeRename`. It returns the parsed spec together with
the lexer as the call leaves it, or an error. -/
def parsePipeRename (parseFieldName : fieldNameParser) (fuel : Nat) (lex : lexer) :
    Option (Except parseError (pipeRename × lexer)) :=
  if !lexer.isKeyword lex ["rename", "mv"] then
    some (.error (.expectingRenameOrMv (lexer.token lex)))
  else
    parsePipeRenameLoop parseFieldName fuel lex [] []

/-! ## Token streams of well-formed clauses -/

/-- An unquoted token with the given text. -/
def word (text : String) : Token := ⟨text, false⟩

/-- The keyword token `as`. -/
def asToken : Token := ⟨"as", false⟩

/-- The separator token `,`. -/
def commaToken : Token := ⟨",", false⟩

/-- One clause `src [as] dst` of the query text: its two field-name tokens and
whether `as` is written between them. -/
structure Clause where
  src : Token
  hasAs : Bool
  dst : Token
  deriving DecidableEq, Repr

/-- The tokens of one clause. -/
def Clause.tokens (c : Clause) : List Token :=
  c.src :: ((if c.hasAs then [asToken] else []) ++ [c.dst])

/-- The tokens of a list of clauses separated by `,`. -/
def clauseTokens : List Clause → List Token
  | [] => []
  | [c] => c.tokens
  | c :: c' :: cs => c.tokens ++ commaToken :: clauseTokens (c' :: cs)

/-- The tokens of a list of clauses each of which is followed by `,`. -/
def leadingTokens : List Clause → List Token
  | [] => []
  | c :: cs => c.tokens ++ commaToken :: leadingTokens cs

/-- A field-name parser that reads one token: it takes the text of any token
other than the end of input and the unquoted `,`, `|`, `(` and `)`. -/
def tokenFieldName : fieldNameParser := fun lex =>
  if lexer.isKeyword lex [",", "|", "(", ")", ""] then
    .error ("unexpected token: " ++ lexer.token lex)
  else
    .ok (lexer.token lex, lexer.nextToken lex)

/-- The clause `c` is made of field-name tokens: `parseFieldName` reads each of
its two tokens as one field name, named by `fieldName`, and neither token is
the unquoted keyword `as`. -/
def Clause.readBy (parseFieldName : fieldNameParser) (fieldName : Token → String)
    (c : Clause) : Prop :=
  (∀ rest, parseFieldName (c.src :: rest) = .ok (fieldName c.src, rest)) ∧
  (∀ rest, parseFieldName (c.dst :: rest) = .ok (fieldName c.dst, rest)) ∧
  lexer.isKeyword [c.src] ["as"] = false ∧
  lexer.isKeyword [c.dst] ["as"] = false

/-- What the loop does once a pair is complete and the lexer stands at `lex`:
the `switch` at the end of the loop body, continuing with `fuel`. -/
def afterPair (parseFieldName : fieldNameParser) (fuel : Nat) (lex : lexer)
    (srcFields dstFields : List String) : Option (Except parseError (pipeRename × lexer)) :=
  if lexer.isKeyword lex ["|", ")", ""] then
    some (.ok (⟨srcFields, dstFields⟩, lex))
  else if lexer.isKeyword lex [","] then
    parsePipeRenameLoop parseFieldName fuel lex srcFields dstFields
  else
    some (.error (.unexpectedToken (lexer.token lex)))

/-! ## The canonical string form -/

/-- The value a run-time panic carries: the `BUG` message given to
`logger.Panicf`, or an index out of the range of a slice. -/
inductive panicValue where
  | bug (msg : String)
  | indexOutOfRange (index length : Nat)
  deriving DecidableEq, Repr

/-- The `for` loop of `pipeRename.String`: it walks `srcFields` from index `i` on
and stores the rendered pair at `a[i]`; `a` holds the entries stored so far.
Reading `dstFields[i]` past the end of the slice panics. -/
def renderPairs (quoteTokenIfNeeded : String → String) (dstFields : List String) :
    List String → Nat → List String → Except panicValue (List String)
  | [], _, a => .ok a
  | srcField :: rest, i, a =>
    match dstFields[i]? with
    | none => .error (.indexOutOfRange i dstFields.length)
    | some dstField =>
      renderPairs quoteTokenIfNeeded dstFields rest (i + 1)
        (a ++ [quoteTokenIfNeeded srcField ++ " as " ++ quoteTokenIfNeeded dstField])

/-- The method `pipeRename.String` (named with an underscore, since inside the
namespace of `pipeRename` the name would hide the type of strings). The
function `quoteTokenIfNeeded` is declared outside `pipe_rename.go` and is a
parameter here. The result is the string returned, or the value of the panic
that ends the call. -/
def pipeRename_String (quoteTokenIfNeeded : String → String) (pr : pipeRename) :
    Except panicValue String :=
  if pr.srcFields.length = 0 then
    .error (.bug "BUG: pipeRename must contain at least a single srcField")
  else
    match renderPairs quoteTokenIfNeeded pr.dstFields pr.srcFields 0 [] with
    | .error p => .error p
    | .ok a => .ok ("rename " ++ ", ".intercalate a)

/-! ## Blocks and the processor -/

/-- Modelled from the spec: the type `blockResult` is declared outside
`pipe_rename.go`. The spec describes a row block as a timestamp column, whose
length is the row count, plus a mapping from column name to column data. -/
structure blockResult where
  timestamps : List Int
  columns : String → Option (List String)

/-- Modelled from the spec: one step of relabelling, "the column currently at
the source name becomes known as the destination name". The column leaves
its old name and takes the new one, replacing a column already known by that
name. When no column is known by the source name, the block is left as it is
except that no column is known by the destination name either. -/
def blockResult.renameColumn (br : blockResult) (srcField dstField : String) : blockResult :=
  match br.columns srcField with
  | none => { br with columns := Function.update br.columns dstField none }
  | some c =>
    { br with columns := Function.update (Function.update br.columns srcField none) dstField (some c) }

/-- Modelled from the spec: `blockResult.renameColumns`, which is declared
outside `pipe_rename.go`. The spec describes it as relabelling the columns
"for each pair, in the order given". -/
def blockResult.renameColumns (br : blockResult) (srcFields dstFields : List String) :
    blockResult :=
  (srcFields.zip dstFields).foldl (fun b p => b.renameColumn p.1 p.2) br

/-- A call made on a downstream processor `pp`, as the interface
`pipeProcessor` offers them. -/
inductive ppCall (β : Type) where
  | writeBlock (pp : β) (workerID : Nat) (br : blockResult)
  | flush (pp : β)

/-- The struct `pipeRenameProcessor`; `β` is the type of references to
downstream processors. -/
structure pipeRenameProcessor (β : Type) where
  pr : pipeRename
  ppBase : β

/-- The method `pipeRename.newPipeProcessor`; its first three arguments are
not used by the code and are left out. -/
def pipeRename.newPipeProcessor {β : Type} (pr : pipeRename) (ppBase : β) :
    pipeRenameProcessor β :=
  { pr := pr, ppBase := ppBase }

/-- The method `pipeRenameProcessor.writeBlock`. The block is mutated in place by
the code; here the call returns the block as the method's own statements
leave it, and the calls it makes on the downstream processor, in order. The
method `renameColumns` of the block is a parameter. -/
def pipeRenameProcessor.writeBlock {β : Type}
    (renameColumns : blockResult → List String → List String → blockResult)
    (prp : pipeRenameProcessor β) (workerID : Nat) (br : blockResult) :
    blockResult × List (ppCall β) :=
  if br.timestamps.length = 0 then
    (br, [])
  else
    let br := renameColumns br prp.pr.srcFields prp.pr.dstFields
    (br, [ppCall.writeBlock prp.ppBase workerID br])

/-- The method `pipeRenameProcessor.flush`: it returns the processor as the call
leaves it, the calls made on the downstream processor, and the error
returned (`none` for `nil`). -/
def pipeRenameProcessor.flush {β : Type} (prp : pipeRenameProcessor β) :
    pipeRenameProcessor β × List (ppCall β) × Option String :=
  (prp, [], none)

/-- A field is required at a pipe boundary when it is in the needed fields and
not in the unneeded fields. -/
def requiredField (neededFields unneededFields : fieldsSet) (field : String) : Prop :=
  fieldsSet.contains neededFields field = true ∧
    fieldsSet.contains unneededFields field = false

/-- A block with one row and the single column `a`, holding the value `v`. -/
def oneColumnBlock (v : String) : blockResult :=
  { timestamps := [0], columns := fun f => if f = "a" then some [v] else none }

/-- A block with one row and the two columns `a`, holding the value `v`, and
`z`, holding the value `w`. -/
def twoColumnBlock (v w : String) : blockResult :=
  { timestamps := [0],
    columns := fun f => if f = "a" then some [v] else if f = "z" then some [w] else none }

/-- One step of relabelling carried out on names instead of data: `o` tells, for
each name, which input column is known by it (`none` when no column is), and
the pair `p` moves what is known by its source name to its destination name. -/
def originStep (o : String → Option String) (p : String × String) : String → Option String :=
  Function.update (Function.update o p.1 none) p.2 (o p.1)

/-- The relabelling of `blockResult.renameColumns` carried out on names instead
of data: `some g` at `f` when the column known as `f` after the pairs are
applied in order is the one the input block knows as `g`, and `none` when no
column is known as `f` afterwards. -/
def columnOrigin (srcFields dstFields : List String) : String → Option String :=
  (srcFields.zip dstFields).foldl originStep some

/-- The pairs of the spec act one by one when they are applied in order: a
column known afterwards by a name the spec mentions is the input column of a
source field paired with that name. Chains and swaps do not act so. -/
def pipeRename.actsPairwise (pr : pipeRename) : Prop :=
  ∀ f ∈ pr.srcFields ++ pr.dstFields, ∀ g ∈ columnOrigin pr.srcFields pr.dstFields f,
    (g, f) ∈ pr.srcFields.zip pr.dstFields

/-! ## Field sets: membership after each operation -/

theorem fieldsSet.mem_addAll (fields : List String) (fs : fieldsSet) (f : String) :
    f ∈ fieldsSet.addAll fs fields ↔ f ∈ fs ∨ f ∈ fields := by
  induction fields generalizing fs with
  | nil => simp [fieldsSet.addAll]
  | cons x xs ih =>
    have h := ih (fieldsSet.add fs x)
    simp only [fieldsSet.addAll, List.foldl_cons] at h ⊢
    rw [h]
    simp only [fieldsSet.add, Finset.mem_insert, List.mem_cons]
    tauto

theorem fieldsSet.mem_removeAll (fields : List String) (fs : fieldsSet) (f : String) :
    f ∈ fieldsSet.removeAll fs fields ↔ f ∈ fs ∧ f ∉ fields := by
  induction fields generalizing fs with
  | nil => simp [fieldsSet.removeAll]
  | cons x xs ih =>
    have h := ih (fieldsSet.remove fs x)
    simp only [fieldsSet.removeAll, List.foldl_cons] at h ⊢
    rw [h]
    simp only [fieldsSet.remove, Finset.mem_erase, List.mem_cons, not_or]
    tauto

theorem mem_dropUsedSrc (m : String → Nat) (srcFields : List String) (fs : fieldsSet)
    (f : String) :
    f ∈ dropUsedSrc m srcFields fs ↔ f ∈ fs ∧ ¬ (f ∈ srcFields ∧ 0 < m f) := by
  induction srcFields generalizing fs with
  | nil => simp [dropUsedSrc]
  | cons x xs ih =>
    simp only [dropUsedSrc, List.foldl_cons] at ih ⊢
    rw [ih]
    by_cases hx : 0 < m x
    · simp only [gt_iff_lt, hx, if_true, fieldsSet.remove, Finset.mem_erase, List.mem_cons]
      constructor
      · rintro ⟨⟨hne, hf⟩, hn⟩
        refine ⟨hf, ?_⟩
        rintro ⟨h | h, hm⟩
        · exact hne h
        · exact hn ⟨h, hm⟩
      · rintro ⟨hf, hn⟩
        refine ⟨⟨?_, hf⟩, fun h => hn ⟨Or.inr h.1, h.2⟩⟩
        intro h
        exact hn ⟨Or.inl h, h ▸ hx⟩
    · simp only [gt_iff_lt, hx, if_false, List.mem_cons]
      constructor
      · rintro ⟨hf, hn⟩
        refine ⟨hf, ?_⟩
        rintro ⟨h | h, hm⟩
        · exact hx (h ▸ hm)
        · exact hn ⟨h, hm⟩
      · rintro ⟨hf, hn⟩
        exact ⟨hf, fun h => hn ⟨Or.inr h.1, h.2⟩⟩

theorem mem_moveNeededSrc (m : String → Nat) (srcFields : List String) (fs : fieldsSet)
    (f : String) :
    f ∈ moveNeededSrc m srcFields fs ↔
      (f ∈ srcFields ∧ 0 < m f) ∨ (f ∉ srcFields ∧ f ∈ fs) := by
  induction srcFields generalizing fs with
  | nil => simp [moveNeededSrc]
  | cons x xs ih =>
    simp only [moveNeededSrc, List.foldl_cons] at ih ⊢
    rw [ih]
    by_cases hx : 0 < m x
    · simp only [gt_iff_lt, hx, if_true, fieldsSet.add, Finset.mem_insert, List.mem_cons, not_or]
      constructor
      · rintro (⟨h, hm⟩ | ⟨hn, rfl | hf⟩)
        · exact Or.inl ⟨Or.inr h, hm⟩
        · exact Or.inl ⟨Or.inl rfl, hx⟩
        · by_cases hfx : f = x
          · exact Or.inl ⟨Or.inl hfx, hfx ▸ hx⟩
          · exact Or.inr ⟨⟨hfx, hn⟩, hf⟩
      · rintro (⟨h | h, hm⟩ | ⟨⟨hfx, hn⟩, hf⟩)
        · by_cases hfxs : f ∈ xs
          · exact Or.inl ⟨hfxs, hm⟩
          · exact Or.inr ⟨hfxs, Or.inl h⟩
        · exact Or.inl ⟨h, hm⟩
        · exact Or.inr ⟨hn, Or.inr hf⟩
    · simp only [gt_iff_lt, hx, if_false, fieldsSet.remove, Finset.mem_erase, List.mem_cons,
        not_or]
      constructor
      · rintro (⟨h, hm⟩ | ⟨hn, hfx, hf⟩)
        · exact Or.inl ⟨Or.inr h, hm⟩
        · exact Or.inr ⟨⟨hfx, hn⟩, hf⟩
      · rintro (⟨h | h, hm⟩ | ⟨⟨hfx, hn⟩, hf⟩)
        · exact absurd (h ▸ hm) hx
        · exact Or.inl ⟨h, hm⟩
        · exact Or.inr ⟨hn, hfx, hf⟩

/-! ## The counting loop -/

theorem liveDst_iff (n u : fieldsSet) (d : String) :
    (fieldsSet.contains n d && !fieldsSet.contains u d) = true ↔ liveDst n u d := by
  unfold liveDst
  cases fieldsSet.contains n d <;> cases fieldsSet.contains u d <;> simp

theorem countNeededSrc_spec (srcFields : List String) (n u : fieldsSet) :
    ∀ (dstFields : List String) (i : Nat) (m0 : String → Nat),
      i + dstFields.length ≤ srcFields.length →
      ∃ m, countNeededSrc srcFields n u dstFields i m0 = some m ∧
        ∀ s, 0 < m s ↔ 0 < m0 s ∨ ∃ (j : Nat) (d : String), dstFields[j]? = some d ∧
          srcFields[i + j]? = some s ∧ liveDst n u d := by
  intro dstFields
  induction dstFields with
  | nil =>
    intro i m0 _
    exact ⟨m0, rfl, fun s => by simp⟩
  | cons d rest ih =>
    intro i m0 hlen
    simp only [List.length_cons] at hlen
    have hi : i < srcFields.length := by omega
    by_cases hlive : (fieldsSet.contains n d && !fieldsSet.contains u d) = true
    · obtain ⟨m, hm, hspec⟩ := ih (i + 1)
        (Function.update m0 srcFields[i] (m0 srcFields[i] + 1)) (by omega)
      refine ⟨m, ?_, ?_⟩
      · simp only [countNeededSrc, hlive, if_true, List.getElem?_eq_getElem hi]
        exact hm
      · intro s
        rw [hspec s]
        constructor
        · rintro (h | ⟨j, d', hd, hs, hl⟩)
          · by_cases hs : s = srcFields[i]
            · refine Or.inr ⟨0, d, by simp, ?_, (liveDst_iff n u d).1 hlive⟩
              simp [hs, List.getElem?_eq_getElem hi]
            · rw [Function.update_noteq hs] at h
              exact Or.inl h
          · refine Or.inr ⟨j + 1, d', by simpa using hd, ?_, hl⟩
            rw [← hs]
            congr 1
            omega
        · rintro (h | ⟨j, d', hd, hs, hl⟩)
          · left
            by_cases hs : s = srcFields[i]
            · subst hs
              simp
            · rw [Function.update_noteq hs]
              exact h
          · cases j with
            | zero =>
              left
              simp only [Nat.add_zero, List.getElem?_eq_getElem hi, Option.some.injEq] at hs
              subst hs
              simp
            | succ k =>
              right
              refine ⟨k, d', by simpa using hd, ?_, hl⟩
              rw [← hs]
              congr 1
              omega
    · obtain ⟨m, hm, hspec⟩ := ih (i + 1) m0 (by omega)
      refine ⟨m, ?_, ?_⟩
      · simp only [countNeededSrc, hlive, if_false]
        exact hm
      · intro s
        rw [hspec s]
        constructor
        · rintro (h | ⟨j, d', hd, hs, hl⟩)
          · exact Or.inl h
          · refine Or.inr ⟨j + 1, d', by simpa using hd, ?_, hl⟩
            rw [← hs]
            congr 1
            omega
        · rintro (h | ⟨j, d', hd, hs, hl⟩)
          · exact Or.inl h
          · cases j with
            | zero =>
              simp only [List.getElem?_cons_zero, Option.some.injEq] at hd
              subst hd
              exact absurd ((liveDst_iff n u d).2 hl) hlive
            | succ k =>
              right
              refine ⟨k, d', by simpa using hd, ?_, hl⟩
              rw [← hs]
              congr 1
              omega

/-- With at least as many source fields as destination fields the counting loop
does not panic, and a source has a positive count exactly when one of its
pairs has a destination that is needed and not unneeded. -/
theorem countNeededSrc_pos (pr : pipeRename) (n u : fieldsSet)
    (hlen : pr.dstFields.length ≤ pr.srcFields.length) :
    ∃ m, countNeededSrc pr.srcFields n u pr.dstFields 0 (fun _ => 0) = some m ∧
      ∀ s, 0 < m s ↔ pr.liveSrc n u s := by
  obtain ⟨m, hm, hspec⟩ := countNeededSrc_spec pr.srcFields n u pr.dstFields 0 (fun _ => 0)
    (by omega)
  refine ⟨m, hm, fun s => ?_⟩
  rw [hspec s]
  unfold pipeRename.liveSrc
  constructor
  · rintro (h | ⟨j, d, hd, hs, hl⟩)
    · exact absurd h (lt_irrefl 0)
    · exact ⟨j, d, by simpa using hs, hd, hl⟩
  · rintro ⟨j, d, hs, hd, hl⟩
    exact Or.inr ⟨j, d, hd, by simpa using hs, hl⟩

theorem pipeRename.liveSrc_mem (pr : pipeRename) (n u : fieldsSet) (s : String)
    (h : pr.liveSrc n u s) : s ∈ pr.srcFields := by
  obtain ⟨i, d, hs, _, _⟩ := h
  exact List.mem_iff_getElem?.2 ⟨i, hs⟩

/-! ## What `updateNeededFields` leaves in the two sets -/

theorem fieldsSet.contains_iff (fs : fieldsSet) (f : String) :
    fieldsSet.contains fs f = true ↔ f ∈ fs ∨ "*" ∈ fs := by
  simp [fieldsSet.contains]

theorem fieldsSet.contains_eq_false_iff (fs : fieldsSet) (f : String) :
    fieldsSet.contains fs f = false ↔ f ∉ fs ∧ "*" ∉ fs := by
  simp [fieldsSet.contains]

/-- Explicit branch: the call returns, the unneeded fields are cleared, and the
needed fields are the sources with a counted destination together with the
old needed fields that the spec does not mention. -/
theorem updateNeededFields_explicit (pr : pipeRename) (n u : fieldsSet)
    (hlen : pr.dstFields.length ≤ pr.srcFields.length)
    (hw : fieldsSet.contains n "*" = false) :
    ∃ n', pr.updateNeededFields n u = some (n', ∅) ∧
      ∀ f, f ∈ n' ↔ pr.liveSrc n u f ∨ (f ∉ pr.srcFields ∧ f ∈ n ∧ f ∉ pr.dstFields) := by
  obtain ⟨m, hm, hpos⟩ := countNeededSrc_pos pr n u hlen
  refine ⟨moveNeededSrc m pr.srcFields (fieldsSet.removeAll n pr.dstFields), ?_, ?_⟩
  · simp [pipeRename.updateNeededFields, hm, hw, fieldsSet.reset]
  · intro f
    rw [mem_moveNeededSrc, fieldsSet.mem_removeAll, hpos f]
    constructor
    · rintro (⟨_, h⟩ | h)
      · exact Or.inl h
      · exact Or.inr h
    · rintro (h | h)
      · exact Or.inl ⟨pr.liveSrc_mem n u f h, h⟩
      · exact Or.inr h

/-- Wildcard branch: the call returns, the needed fields are untouched, and the
unneeded fields are the old ones and the destinations, less the sources with
a counted destination. -/
theorem updateNeededFields_wildcard (pr : pipeRename) (n u : fieldsSet)
    (hlen : pr.dstFields.length ≤ pr.srcFields.length)
    (hw : fieldsSet.contains n "*" = true) :
    ∃ u', pr.updateNeededFields n u = some (n, u') ∧
      ∀ f, f ∈ u' ↔ (f ∈ u ∨ f ∈ pr.dstFields) ∧ ¬ pr.liveSrc n u f := by
  obtain ⟨m, hm, hpos⟩ := countNeededSrc_pos pr n u hlen
  refine ⟨dropUsedSrc m pr.srcFields (fieldsSet.addAll u pr.dstFields), ?_, ?_⟩
  · simp [pipeRename.updateNeededFields, hm, hw]
  · intro f
    rw [mem_dropUsedSrc, fieldsSet.mem_addAll, hpos f]
    constructor
    · rintro ⟨h, hn⟩
      exact ⟨h, fun hl => hn ⟨pr.liveSrc_mem n u f hl, hl⟩⟩
    · rintro ⟨h, hn⟩
      exact ⟨h, fun hl => hn hl.2⟩

/-! ## Field-usage propagation: the stated properties -/

/-- C1 (as stated, refuted): with pairs `[("*","x"),("b","y")]`, needed fields
`{"x"}` and no unneeded fields, the needed fields hold no wildcard before the
call; afterwards they are `{"*"}`, so the source `"b"` is in them although no
pair with source `"b"` has a needed destination. -/
theorem updateNeededFields_explicit_sources_counterexample :
    fieldsSet.contains {"x"} "*" = false ∧
    pipeRename.updateNeededFields ⟨["*", "b"], ["x", "y"]⟩ {"x"} ∅ = some ({"*"}, ∅) ∧
    "b" ∈ ["*", "b"] ∧
    fieldsSet.contains {"*"} "b" = true ∧
    ¬ pipeRename.liveSrc ⟨["*", "b"], ["x", "y"]⟩ {"x"} ∅ "b" := by
  refine ⟨by decide, by decide, by decide, by decide, ?_⟩
  rintro ⟨i, d, hs, hd, hl⟩
  match i, hs, hd with
  | 0, hs, _ => exact absurd hs (by decide)
  | 1, _, hd =>
    simp only [List.getElem?_cons_succ, List.getElem?_cons_zero, Option.some.injEq] at hd
    subst hd
    exact absurd hl.1 (by decide)
  | k + 2, hs, _ => simp at hs

/-- C1 (amended): explicit mode, sources. For a spec with equally many source
and destination fields, none of whose source fields is the wildcard, and
needed fields without the wildcard, the call returns, and afterwards a source
field `s` of the spec is in the needed fields if and only if some pair with
source `s` has a destination that was in the needed fields and not in the
unneeded fields before the call. -/
theorem updateNeededFields_explicit_sources (pr : pipeRename) (n u : fieldsSet)
    (hlen : pr.srcFields.length = pr.dstFields.length)
    (hsrc : "*" ∉ pr.srcFields)
    (hw : fieldsSet.contains n "*" = false) :
    ∃ n' u', pr.updateNeededFields n u = some (n', u') ∧
      ∀ s ∈ pr.srcFields, (fieldsSet.contains n' s = true ↔ pr.liveSrc n u s) := by
  obtain ⟨n', hn', hmem⟩ := updateNeededFields_explicit pr n u (le_of_eq hlen.symm) hw
  refine ⟨n', ∅, hn', fun s hs => ?_⟩
  have hstar : "*" ∉ n := ((fieldsSet.contains_eq_false_iff n "*").1 hw).2
  rw [fieldsSet.contains_iff, hmem s, hmem "*"]
  constructor
  · rintro ((h | ⟨h, _⟩) | (h | ⟨_, h, _⟩))
    · exact h
    · exact absurd hs h
    · exact absurd (pr.liveSrc_mem n u "*" h) hsrc
    · exact absurd h hstar
  · intro h
    exact Or.inl (Or.inl h)

/-- C1, at pairs `[("a","x"),("b","x")]` with needed fields `{"x"}`: both sources
are needed afterwards. -/
theorem updateNeededFields_explicit_sources_witness :
    [("a" : String), "b"].length = ["x", "x"].length ∧
    "*" ∉ ["a", "b"] ∧
    fieldsSet.contains {"x"} "*" = false ∧
    ∃ n' u', pipeRename.updateNeededFields ⟨["a", "b"], ["x", "x"]⟩ {"x"} ∅ = some (n', u') ∧
      ∀ s ∈ ["a", "b"],
        (fieldsSet.contains n' s = true ↔
          pipeRename.liveSrc ⟨["a", "b"], ["x", "x"]⟩ {"x"} ∅ s) :=
  ⟨by decide, by decide, by decide,
    updateNeededFields_explicit_sources ⟨["a", "b"], ["x", "x"]⟩ {"x"} ∅
      (by decide) (by decide) (by decide)⟩

/-- C2 (as stated, refuted): with the pair `("a","*")`, needed fields `{"*"}` and
no unneeded fields, the unneeded fields are `{"*"}` after the call, so the
field `"z"` is in them although it was not unneeded before and is not a
destination field. -/
theorem updateNeededFields_wildcard_unneeded_counterexample :
    fieldsSet.contains {"*"} "*" = true ∧
    fieldsSet.contains ∅ "*" = false ∧
    pipeRename.updateNeededFields ⟨["a"], ["*"]⟩ {"*"} ∅ = some ({"*"}, {"*"}) ∧
    fieldsSet.contains {"*"} "z" = true ∧
    ¬ (fieldsSet.contains ∅ "z" = true ∨ "z" ∈ ["*"]) := by
  decide

/-- C2 (amended): wildcard mode. For a spec with equally many source and
destination fields, none of whose field names is the wildcard, needed fields
holding the wildcard and unneeded fields not holding it, the call returns and
leaves the needed fields unchanged, and afterwards a field `f` is in the
unneeded fields if and only if (`f` was unneeded before or is a destination
field) and `f` is not a source field with a pair whose destination was not
unneeded before. -/
theorem updateNeededFields_wildcard_unneeded (pr : pipeRename) (n u : fieldsSet)
    (hlen : pr.srcFields.length = pr.dstFields.length)
    (_hsrc : "*" ∉ pr.srcFields) (hdst : "*" ∉ pr.dstFields)
    (hw : fieldsSet.contains n "*" = true)
    (hu : fieldsSet.contains u "*" = false) :
    ∃ u', pr.updateNeededFields n u = some (n, u') ∧
      ∀ f, (fieldsSet.contains u' f = true ↔
        ((fieldsSet.contains u f = true ∨ f ∈ pr.dstFields) ∧
          ¬ ∃ (i : Nat) (d : String), pr.srcFields[i]? = some f ∧ pr.dstFields[i]? = some d ∧
            fieldsSet.contains u d = false)) := by
  obtain ⟨u', hu', hmem⟩ := updateNeededFields_wildcard pr n u (le_of_eq hlen.symm) hw
  refine ⟨u', hu', fun f => ?_⟩
  have hstar : "*" ∉ u := ((fieldsSet.contains_eq_false_iff u "*").1 hu).2
  have hlive : ∀ g, pr.liveSrc n u g ↔
      ∃ (i : Nat) (d : String), pr.srcFields[i]? = some g ∧ pr.dstFields[i]? = some d ∧
        fieldsSet.contains u d = false := by
    intro g
    constructor
    · rintro ⟨i, d, hs, hd, hl⟩
      exact ⟨i, d, hs, hd, hl.2⟩
    · rintro ⟨i, d, hs, hd, hl⟩
      refine ⟨i, d, hs, hd, ?_, hl⟩
      rw [fieldsSet.contains_iff] at hw ⊢
      exact Or.inr (hw.elim id id)
  rw [fieldsSet.contains_iff, hmem f, hmem "*", hlive f, fieldsSet.contains_iff]
  constructor
  · rintro (⟨h, hn⟩ | ⟨h, _⟩)
    · exact ⟨h.elim (fun h => Or.inl (Or.inl h)) Or.inr, hn⟩
    · exact absurd h (fun h => h.elim hstar hdst)
  · rintro ⟨h, hn⟩
    refine Or.inl ⟨?_, hn⟩
    rcases h with (h | h) | h
    · exact Or.inl h
    · exact absurd h hstar
    · exact Or.inr h

/-- C2, at the pair `("a","b")` with needed fields `{"*"}` and unneeded fields
`{"a"}`. -/
theorem updateNeededFields_wildcard_unneeded_witness :
    [("a" : String)].length = ["b"].length ∧
    "*" ∉ ["a"] ∧ "*" ∉ ["b"] ∧
    fieldsSet.contains {"*"} "*" = true ∧
    fieldsSet.contains {"a"} "*" = false ∧
    ∃ u', pipeRename.updateNeededFields ⟨["a"], ["b"]⟩ {"*"} {"a"} = some ({"*"}, u') ∧
      ∀ f, (fieldsSet.contains u' f = true ↔
        ((fieldsSet.contains {"a"} f = true ∨ f ∈ ["b"]) ∧
          ¬ ∃ (i : Nat) (d : String), ["a"][i]? = some f ∧ ["b"][i]? = some d ∧
            fieldsSet.contains {"a"} d = false)) :=
  ⟨by decide, by decide, by decide, by decide, by decide,
    updateNeededFields_wildcard_unneeded ⟨["a"], ["b"]⟩ {"*"} {"a"}
      (by decide) (by decide) (by decide) (by decide) (by decide)⟩

/-- C3: explicit mode, single pair. For distinct non-wildcard field names `a`
and `b`, the call for the pair `(a,b)` on needed fields `{b}` and no unneeded
fields returns with needed fields exactly `{a}`, in which `b` is absent, and
with no unneeded fields. -/
theorem updateNeededFields_single_explicit (a b : String)
    (hab : a ≠ b) (ha : a ≠ "*") (hb : b ≠ "*") :
    pipeRename.updateNeededFields ⟨[a], [b]⟩ {b} ∅ = some ({a}, ∅) ∧
      fieldsSet.contains {a} b = false := by
  have hb' : ¬ "*" = b := fun h => hb h.symm
  have ha' : ¬ "*" = a := fun h => ha h.symm
  have hba : ¬ b = a := fun h => hab h.symm
  constructor
  · simp [pipeRename.updateNeededFields, countNeededSrc, fieldsSet.contains, hb',
      moveNeededSrc, fieldsSet.removeAll, fieldsSet.remove, fieldsSet.add, fieldsSet.reset]
  · simp [fieldsSet.contains, hba, ha']

/-- C3, at `a = "a"` and `b = "b"`. -/
theorem updateNeededFields_single_explicit_witness :
    "a" ≠ "b" ∧ "a" ≠ "*" ∧ "b" ≠ "*" ∧
    pipeRename.updateNeededFields ⟨["a"], ["b"]⟩ {"b"} ∅ = some ({"a"}, ∅) ∧
      fieldsSet.contains {"a"} "b" = false :=
  ⟨by decide, by decide, by decide,
    updateNeededFields_single_explicit "a" "b" (by decide) (by decide) (by decide)⟩

/-- C4: wildcard mode, single pair. For distinct non-wildcard field names `a`
and `b`, the call for the pair `(a,b)` on needed fields `{"*"}` and no
unneeded fields returns with needed fields `{"*"}` and unneeded fields
exactly `{b}`, in which `a` is absent. -/
theorem updateNeededFields_single_wildcard (a b : String)
    (hab : a ≠ b) (_ha : a ≠ "*") (hb : b ≠ "*") :
    pipeRename.updateNeededFields ⟨[a], [b]⟩ {"*"} ∅ = some ({"*"}, {b}) ∧
      fieldsSet.contains {b} a = false := by
  have hb' : ¬ "*" = b := fun h => hb h.symm
  constructor
  · simp [pipeRename.updateNeededFields, countNeededSrc, fieldsSet.contains,
      dropUsedSrc, fieldsSet.addAll, fieldsSet.remove, fieldsSet.add, hab, hab.symm]
  · simp [fieldsSet.contains, hab, hb']

/-- C4, at `a = "a"` and `b = "b"`. -/
theorem updateNeededFields_single_wildcard_witness :
    "a" ≠ "b" ∧ "a" ≠ "*" ∧ "b" ≠ "*" ∧
    pipeRename.updateNeededFields ⟨["a"], ["b"]⟩ {"*"} ∅ = some ({"*"}, {"b"}) ∧
      fieldsSet.contains {"b"} "a" = false :=
  ⟨by decide, by decide, by decide,
    updateNeededFields_single_wildcard "a" "b" (by decide) (by decide) (by decide)⟩

/-! ## The parser loop on well-formed clauses -/

theorem lexer.isKeyword_cons (t : Token) (rest : lexer) (keywords : List String) :
    lexer.isKeyword (t :: rest) keywords = lexer.isKeyword [t] keywords := rfl

/-- The loop starts by advancing, so the token it starts at does not matter. -/
theorem parsePipeRenameLoop_head (pfn : fieldNameParser) (fuel : Nat) (x y : Token)
    (lex : lexer) (S D : List String) :
    parsePipeRenameLoop pfn fuel (x :: lex) S D = parsePipeRenameLoop pfn fuel (y :: lex) S D := by
  cases fuel with
  | zero => rfl
  | succ k => simp [parsePipeRenameLoop, lexer.nextToken]

/-- One turn of the loop over the tokens of a clause of field names. -/
theorem parsePipeRenameLoop_clause (pfn : fieldNameParser) (fieldName : Token → String)
    (c : Clause) (hc : c.readBy pfn fieldName) (fuel : Nat) (x : Token) (rest : lexer)
    (S D : List String) :
    parsePipeRenameLoop pfn (fuel + 1) (x :: (c.tokens ++ rest)) S D =
      afterPair pfn fuel rest (S ++ [fieldName c.src]) (D ++ [fieldName c.dst]) := by
  obtain ⟨hsrc, hdst, _, hdstAs⟩ := hc
  cases has : c.hasAs with
  | true =>
    have hk : lexer.isKeyword (asToken :: c.dst :: rest) ["as"] = true := rfl
    simp [parsePipeRenameLoop, afterPair, Clause.tokens, has, lexer.nextToken, hsrc, hdst, hk]
  | false =>
    have hk : lexer.isKeyword (c.dst :: rest) ["as"] = false := by
      rw [lexer.isKeyword_cons]; exact hdstAs
    simp [parsePipeRenameLoop, afterPair, Clause.tokens, has, lexer.nextToken, hsrc, hdst, hk]

theorem afterPair_comma (pfn : fieldNameParser) (fuel : Nat) (rest : lexer)
    (S D : List String) :
    afterPair pfn fuel (commaToken :: rest) S D =
      parsePipeRenameLoop pfn fuel (commaToken :: rest) S D := by
  have h1 : lexer.isKeyword (commaToken :: rest) ["|", ")", ""] = false := rfl
  have h2 : lexer.isKeyword (commaToken :: rest) [","] = true := rfl
  simp [afterPair, h1, h2]

/-- The loop over clauses of field names each followed by `,` collects their
names and goes on behind the last `,`. -/
theorem parsePipeRenameLoop_leading (pfn : fieldNameParser) (fieldName : Token → String) :
    ∀ (cs : List Clause), (∀ c ∈ cs, c.readBy pfn fieldName) →
      ∀ (fuel : Nat) (x : Token) (rest : lexer) (S D : List String),
      parsePipeRenameLoop pfn (cs.length + fuel) (x :: (leadingTokens cs ++ rest)) S D =
        parsePipeRenameLoop pfn fuel (commaToken :: rest)
          (S ++ cs.map (fun c => fieldName c.src)) (D ++ cs.map (fun c => fieldName c.dst)) := by
  intro cs
  induction cs with
  | nil =>
    intro _ fuel x rest S D
    simpa [leadingTokens] using parsePipeRenameLoop_head pfn fuel x commaToken rest S D
  | cons c cs ih =>
    intro hcs fuel x rest S D
    have hc := hcs c (List.mem_cons_self c cs)
    have hrest := ih (fun c' h => hcs c' (List.mem_cons_of_mem c h))
    have hfuel : (c :: cs).length + fuel = (cs.length + fuel) + 1 := by
      simp only [List.length_cons]; omega
    rw [hfuel]
    simp only [leadingTokens, List.append_assoc, List.cons_append]
    rw [parsePipeRenameLoop_clause pfn fieldName c hc, afterPair_comma, hrest]
    simp

/-- Clauses separated by `,` are clauses followed by `,` and a last clause. -/
theorem clauseTokens_concat (cs : List Clause) (c : Clause) :
    clauseTokens (cs ++ [c]) = leadingTokens cs ++ c.tokens := by
  induction cs with
  | nil => simp [clauseTokens, leadingTokens]
  | cons c0 cs ih =>
    cases cs with
    | nil => simp [clauseTokens, leadingTokens]
    | cons c1 cs' =>
      simp only [List.cons_append] at ih ⊢
      simp only [clauseTokens, leadingTokens, ih, List.append_assoc, List.cons_append]

/-- The loop over one or more clauses of field names separated by `,` collects
their names and then decides on the token that follows the last clause. -/
theorem parsePipeRenameLoop_clauses (pfn : fieldNameParser) (fieldName : Token → String)
    (cs : List Clause) (hne : cs ≠ []) (hcs : ∀ c ∈ cs, c.readBy pfn fieldName)
    (fuel : Nat) (x : Token) (rest : lexer) :
    parsePipeRenameLoop pfn (cs.length + fuel) (x :: (clauseTokens cs ++ rest)) [] [] =
      afterPair pfn fuel rest (cs.map (fun c => fieldName c.src))
        (cs.map (fun c => fieldName c.dst)) := by
  rcases List.eq_nil_or_concat cs with h | ⟨init, c, h⟩
  · exact absurd h hne
  · rw [List.concat_eq_append] at h
    subst h
    have hinit : ∀ c' ∈ init, c'.readBy pfn fieldName :=
      fun c' h => hcs c' (by simp [h])
    have hc : c.readBy pfn fieldName := hcs c (by simp)
    have hfuel : (init ++ [c]).length + fuel = init.length + (fuel + 1) := by
      simp only [List.length_append, List.length_singleton]; omega
    rw [hfuel, clauseTokens_concat, List.append_assoc,
      parsePipeRenameLoop_leading pfn fieldName init hinit,
      parsePipeRenameLoop_clause pfn fieldName c hc]
    simp

/-! ## What a successful parse returns -/

theorem lexer.nextToken_suffix (lex : lexer) : lexer.nextToken lex <:+ lex :=
  List.tail_suffix lex

/-- A successful run of the loop appends equally many, and at least one, source
and destination fields to the ones collected before, and returns the lexer
as the last call of `parseFieldName` left it, standing at a terminator. -/
theorem parsePipeRenameLoop_ok (pfn : fieldNameParser) :
    ∀ (fuel : Nat) (lex : lexer) (S D : List String) (pr : pipeRename) (lex' : lexer),
      parsePipeRenameLoop pfn fuel lex S D = some (.ok (pr, lex')) →
      ∃ srcs dsts, srcs.length = dsts.length ∧ 1 ≤ srcs.length ∧
        pr.srcFields = S ++ srcs ∧ pr.dstFields = D ++ dsts ∧
        lexer.isKeyword lex' ["|", ")", ""] = true ∧
        (∃ l d, pfn l = .ok (d, lex') ∧ dsts.getLast? = some d) ∧
        ((∀ l s l', pfn l = .ok (s, l') → l' <:+ l) → lex' <:+ lex) := by
  intro fuel
  induction fuel with
  | zero =>
    intro lex S D pr lex' h
    simp [parsePipeRenameLoop] at h
  | succ k ih =>
    intro lex S D pr lex' h
    simp only [parsePipeRenameLoop] at h
    split at h
    · simp at h
    · rename_i srcField lex1 hsrc
      split at h
      · simp at h
      · rename_i dstField lex2 hdst
        have hsuf : (∀ l s l', pfn l = .ok (s, l') → l' <:+ l) → lex2 <:+ lex := by
          intro hadv
          have h1 : lex1 <:+ lex :=
            (hadv _ _ _ hsrc).trans (lexer.nextToken_suffix lex)
          have h2 : (if lexer.isKeyword lex1 ["as"] = true then lexer.nextToken lex1 else lex1)
              <:+ lex1 := by
            split
            · exact lexer.nextToken_suffix lex1
            · exact List.suffix_refl lex1
          exact ((hadv _ _ _ hdst).trans h2).trans h1
        split at h
        · rename_i hterm
          simp only [Option.some.injEq, Except.ok.injEq, Prod.mk.injEq] at h
          obtain ⟨hpr, hlex⟩ := h
          subst hpr hlex
          exact ⟨[srcField], [dstField], rfl, by simp, rfl, rfl, hterm,
            ⟨_, dstField, hdst, rfl⟩, hsuf⟩
        · split at h
          · obtain ⟨srcs, dsts, hlen, _, hs, hd, hterm, ⟨l, d, hl, hlast⟩, hsuf'⟩ :=
              ih lex2 (S ++ [srcField]) (D ++ [dstField]) pr lex' h
            refine ⟨srcField :: srcs, dstField :: dsts, by simp [hlen], by simp,
              by simp [hs], by simp [hd], hterm, ⟨l, d, hl, ?_⟩, ?_⟩
            · cases dsts with
              | nil => simp at hlast
              | cons d0 ds => simpa [List.getLast?_cons_cons] using hlast
            · intro hadv
              exact (hsuf' hadv).trans (hsuf hadv)
          · simp at h

/-- When `parseFieldName` never lengthens the token stream, the loop returns
once the fuel exceeds the number of tokens behind the current one. -/
theorem parsePipeRenameLoop_returns (pfn : fieldNameParser)
    (hadv : ∀ l s l', pfn l = .ok (s, l') → l'.length ≤ l.length) :
    ∀ (fuel : Nat) (lex : lexer) (S D : List String),
      (lexer.nextToken lex).length < fuel →
      ∃ r, parsePipeRenameLoop pfn fuel lex S D = some r := by
  intro fuel
  induction fuel with
  | zero => intro lex S D h; omega
  | succ k ih =>
    intro lex S D hlt
    simp only [parsePipeRenameLoop]
    split
    · exact ⟨_, rfl⟩
    · rename_i srcField lex1 hsrc
      split
      · exact ⟨_, rfl⟩
      · rename_i dstField lex2 hdst
        split
        · exact ⟨_, rfl⟩
        · split
          · rename_i hcomma
            apply ih
            have h1 : lex1.length ≤ (lexer.nextToken lex).length := hadv _ _ _ hsrc
            have h2 : (if lexer.isKeyword lex1 ["as"] = true then lexer.nextToken lex1
                else lex1).length ≤ lex1.length := by
              split
              · simp [lexer.nextToken]
              · exact le_refl _
            have h3 := hadv _ _ _ hdst
            cases lex2 with
            | nil => simp [lexer.isKeyword] at hcomma
            | cons t ts =>
              simp only [List.length_cons] at h3
              show ts.length < k
              omega
          · exact ⟨_, rfl⟩

/-- When `parseFieldName` never lengthens the token stream, `parsePipeRename`
returns, with a spec or an error, on every token stream once the fuel is the
number of its tokens. -/
theorem parsePipeRename_returns (pfn : fieldNameParser)
    (hadv : ∀ l s l', pfn l = .ok (s, l') → l'.length ≤ l.length) (lex : lexer) :
    ∃ r, parsePipeRename pfn lex.length lex = some r := by
  unfold parsePipeRename
  split
  · exact ⟨_, rfl⟩
  · rename_i hkw
    cases lex with
    | nil => simp [lexer.isKeyword] at hkw
    | cons t ts =>
      exact parsePipeRenameLoop_returns pfn hadv _ _ _ _ (by simp [lexer.nextToken])

theorem lexer.isKeyword_not_separator (lex : lexer)
    (h : lexer.isKeyword lex [",", "|", ")", ""] = false) :
    lexer.isKeyword lex ["|", ")", ""] = false ∧ lexer.isKeyword lex [","] = false := by
  cases lex with
  | nil => simp [lexer.isKeyword] at h
  | cons t ts =>
    simp only [lexer.isKeyword] at h ⊢
    cases hq : t.isQuoted with
    | true => simp
    | false =>
      simp only [hq, Bool.not_false, Bool.true_and, List.contains_cons, Bool.or_eq_false_iff]
        at h ⊢
      exact ⟨⟨h.2.1, h.2.2.1, by simpa using h.2.2.2⟩, h.1, by simp⟩

/-! ## The parser: the stated properties -/

/-- C6: parser result on well-formed input. For one or more clauses of
field-name tokens (each read by `parseFieldName` as one field name, none the
unquoted keyword `as`), the token stream made of the keyword `rename` or
`mv`, the clauses `src [as] dst` separated by `,`, and a terminator (`|`, `)`
or the end of input) is parsed, with fuel for each clause, into the source
names and the destination names in clause order, and the lexer is left at the
terminator. The result mentions neither the keyword nor whether `as` was
written, so it does not depend on them. -/
theorem parsePipeRename_clauses (pfn : fieldNameParser) (fieldName : Token → String)
    (kw : Token) (cs : List Clause) (tail : lexer) (fuel : Nat)
    (hkw : lexer.isKeyword [kw] ["rename", "mv"] = true)
    (hne : cs ≠ [])
    (hcs : ∀ c ∈ cs, c.readBy pfn fieldName)
    (htail : lexer.isKeyword tail ["|", ")", ""] = true)
    (hfuel : cs.length ≤ fuel) :
    parsePipeRename pfn fuel (kw :: (clauseTokens cs ++ tail)) =
      some (.ok (⟨cs.map (fun c => fieldName c.src), cs.map (fun c => fieldName c.dst)⟩,
        tail)) := by
  obtain ⟨f, rfl⟩ := Nat.exists_eq_add_of_le hfuel
  have hkw' : lexer.isKeyword (kw :: (clauseTokens cs ++ tail)) ["rename", "mv"] = true := by
    rw [lexer.isKeyword_cons]; exact hkw
  simp only [parsePipeRename, hkw', Bool.not_true, Bool.false_eq_true, if_false]
  rw [parsePipeRenameLoop_clauses pfn fieldName cs hne hcs]
  simp [afterPair, htail]

/-- C6, at `mv x y` and at `rename x as y`: both parse into the pair `(x, y)`. -/
theorem parsePipeRename_clauses_witness :
    (lexer.isKeyword [word "mv"] ["rename", "mv"] = true ∧
      lexer.isKeyword [word "rename"] ["rename", "mv"] = true ∧
      (∀ c ∈ [Clause.mk (word "x") false (word "y")], c.readBy tokenFieldName Token.text) ∧
      (∀ c ∈ [Clause.mk (word "x") true (word "y")], c.readBy tokenFieldName Token.text) ∧
      lexer.isKeyword [] ["|", ")", ""] = true) ∧
    parsePipeRename tokenFieldName 1
        (word "mv" :: (clauseTokens [Clause.mk (word "x") false (word "y")] ++ [])) =
      some (.ok (⟨["x"], ["y"]⟩, [])) ∧
    parsePipeRename tokenFieldName 1
        (word "rename" :: (clauseTokens [Clause.mk (word "x") true (word "y")] ++ [])) =
      some (.ok (⟨["x"], ["y"]⟩, [])) := by
  have h1 : ∀ c ∈ [Clause.mk (word "x") false (word "y")],
      c.readBy tokenFieldName Token.text := by
    intro c hc
    rw [List.mem_singleton] at hc
    subst hc
    exact ⟨fun _ => rfl, fun _ => rfl, rfl, rfl⟩
  have h2 : ∀ c ∈ [Clause.mk (word "x") true (word "y")],
      c.readBy tokenFieldName Token.text := by
    intro c hc
    rw [List.mem_singleton] at hc
    subst hc
    exact ⟨fun _ => rfl, fun _ => rfl, rfl, rfl⟩
  exact ⟨⟨rfl, rfl, h1, h2, rfl⟩,
    parsePipeRename_clauses tokenFieldName Token.text (word "mv")
      [Clause.mk (word "x") false (word "y")] [] 1 rfl (by simp) h1 rfl (le_refl _),
    parsePipeRename_clauses tokenFieldName Token.text (word "rename")
      [Clause.mk (word "x") true (word "y")] [] 1 rfl (by simp) h2 rfl (le_refl _)⟩

/-- C7: length invariant. Whenever `parsePipeRename` returns a spec, the spec has
as many source fields as destination fields, and at least one. -/
theorem parsePipeRename_lengths (pfn : fieldNameParser) (fuel : Nat) (lex : lexer)
    (pr : pipeRename) (lex' : lexer)
    (h : parsePipeRename pfn fuel lex = some (.ok (pr, lex'))) :
    pr.srcFields.length = pr.dstFields.length ∧ 1 ≤ pr.srcFields.length := by
  unfold parsePipeRename at h
  split at h
  · simp at h
  · obtain ⟨srcs, dsts, hlen, hpos, hs, hd, _⟩ := parsePipeRenameLoop_ok pfn _ _ _ _ _ _ h
    simp only [List.nil_append] at hs hd
    rw [hs, hd]
    exact ⟨hlen, hpos⟩

/-- C7, at `rename a as b, c d`. -/
theorem parsePipeRename_lengths_witness :
    parsePipeRename tokenFieldName 2
        [word "rename", word "a", word "as", word "b", word ",", word "c", word "d"] =
      some (.ok (⟨["a", "c"], ["b", "d"]⟩, [])) ∧
    (["a", "c"].length = ["b", "d"].length ∧ 1 ≤ ["a", "c"].length) :=
  ⟨rfl, parsePipeRename_lengths tokenFieldName 2
    [word "rename", word "a", word "as", word "b", word ",", word "c", word "d"]
    ⟨["a", "c"], ["b", "d"]⟩ [] rfl⟩

/-- C8: stream position on success. Whenever `parsePipeRename` returns a spec, the
lexer it leaves has a terminator (`|`, `)` or the end of input) as its
current token, and it is the lexer as the call of `parseFieldName` for the
last destination field left it, so nothing was consumed after that field;
when `parseFieldName` only ever advances in the stream, what is left is a
suffix of the stream given, beginning at the terminator. -/
theorem parsePipeRename_position (pfn : fieldNameParser) (fuel : Nat) (lex : lexer)
    (pr : pipeRename) (lex' : lexer)
    (h : parsePipeRename pfn fuel lex = some (.ok (pr, lex'))) :
    lexer.isKeyword lex' ["|", ")", ""] = true ∧
    (∃ l d, pfn l = .ok (d, lex') ∧ pr.dstFields.getLast? = some d) ∧
    ((∀ l s l', pfn l = .ok (s, l') → l' <:+ l) → lex' <:+ lex) := by
  unfold parsePipeRename at h
  split at h
  · simp at h
  · obtain ⟨srcs, dsts, _, _, _, hd, hterm, ⟨l, d, hl, hlast⟩, hsuf⟩ :=
      parsePipeRenameLoop_ok pfn _ _ _ _ _ _ h
    simp only [List.nil_append] at hd
    exact ⟨hterm, ⟨l, d, hl, hd ▸ hlast⟩, hsuf⟩

/-- C8, at `rename x as y | z`: the lexer is left at `| z`. -/
theorem parsePipeRename_position_witness :
    parsePipeRename tokenFieldName 1
        [word "rename", word "x", word "as", word "y", word "|", word "z"] =
      some (.ok (⟨["x"], ["y"]⟩, [word "|", word "z"])) ∧
    (lexer.isKeyword [word "|", word "z"] ["|", ")", ""] = true ∧
    (∃ l d, tokenFieldName l = .ok (d, [word "|", word "z"]) ∧ ["y"].getLast? = some d) ∧
    ((∀ l s l', tokenFieldName l = .ok (s, l') → l' <:+ l) →
      [word "|", word "z"] <:+
        [word "rename", word "x", word "as", word "y", word "|", word "z"])) :=
  ⟨rfl, parsePipeRename_position tokenFieldName 1
    [word "rename", word "x", word "as", word "y", word "|", word "z"]
    ⟨["x"], ["y"]⟩ [word "|", word "z"] rfl⟩

/-- C9: syntax errors. When the current token at entry is neither the keyword
`rename` nor `mv`, `parsePipeRename` returns the error that names this token,
and no spec. When the token that follows a complete clause `src [as] dst`
(after any number of earlier clauses separated by `,`) is none of `,`, `|`,
`)` and the end of input, `parsePipeRename`, with fuel for each clause,
returns the error that names this token, and no spec. -/
theorem parsePipeRename_syntax_error (pfn : fieldNameParser) :
    (∀ (fuel : Nat) (lex : lexer), lexer.isKeyword lex ["rename", "mv"] = false →
      parsePipeRename pfn fuel lex =
        some (.error (.expectingRenameOrMv (lexer.token lex)))) ∧
    (∀ (fieldName : Token → String) (kw : Token) (cs : List Clause) (bad : Token)
      (rest : lexer) (fuel : Nat),
      lexer.isKeyword [kw] ["rename", "mv"] = true →
      cs ≠ [] →
      (∀ c ∈ cs, c.readBy pfn fieldName) →
      lexer.isKeyword (bad :: rest) [",", "|", ")", ""] = false →
      cs.length ≤ fuel →
      parsePipeRename pfn fuel (kw :: (clauseTokens cs ++ bad :: rest)) =
        some (.error (.unexpectedToken bad.text))) := by
  constructor
  · intro fuel lex h
    simp [parsePipeRename, h]
  · intro fieldName kw cs bad rest fuel hkw hne hcs hbad hfuel
    obtain ⟨f, rfl⟩ := Nat.exists_eq_add_of_le hfuel
    have hkw' : lexer.isKeyword (kw :: (clauseTokens cs ++ bad :: rest)) ["rename", "mv"]
        = true := by
      rw [lexer.isKeyword_cons]; exact hkw
    obtain ⟨h1, h2⟩ := lexer.isKeyword_not_separator _ hbad
    simp only [parsePipeRename, hkw', Bool.not_true, Bool.false_eq_true, if_false]
    rw [parsePipeRenameLoop_clauses pfn fieldName cs hne hcs]
    simp [afterPair, h1, h2, lexer.token]

/-- C9, at `select x` and at `rename x as y z`. -/
theorem parsePipeRename_syntax_error_witness :
    (lexer.isKeyword [word "select", word "x"] ["rename", "mv"] = false ∧
      parsePipeRename tokenFieldName 1 [word "select", word "x"] =
        some (.error (.expectingRenameOrMv "select"))) ∧
    (lexer.isKeyword [word "rename"] ["rename", "mv"] = true ∧
      [Clause.mk (word "x") true (word "y")] ≠ [] ∧
      (∀ c ∈ [Clause.mk (word "x") true (word "y")], c.readBy tokenFieldName Token.text) ∧
      lexer.isKeyword [word "z"] [",", "|", ")", ""] = false ∧
      parsePipeRename tokenFieldName 1
          (word "rename" :: (clauseTokens [Clause.mk (word "x") true (word "y")] ++ [word "z"])) =
        some (.error (.unexpectedToken "z"))) := by
  have h : ∀ c ∈ [Clause.mk (word "x") true (word "y")],
      c.readBy tokenFieldName Token.text := by
    intro c hc
    rw [List.mem_singleton] at hc
    subst hc
    exact ⟨fun _ => rfl, fun _ => rfl, rfl, rfl⟩
  exact ⟨⟨rfl, (parsePipeRename_syntax_error tokenFieldName).1 1
      [word "select", word "x"] rfl⟩,
    rfl, by simp, h, rfl,
    (parsePipeRename_syntax_error tokenFieldName).2 Token.text (word "rename")
      [Clause.mk (word "x") true (word "y")] (word "z") [] 1 rfl (by simp) h rfl (le_refl _)⟩

/-- C10: field-name errors are attributed and wrapped. Behind the keyword and any
number of clauses of field names each followed by `,`: when `parseFieldName`
fails with error `e` at the source position, `parsePipeRename` fails with the
source-field error wrapping `e`; when it reads the source field and then,
after the optional `as` has been skipped, fails with `e` at the destination
position, `parsePipeRename` fails with the destination-field error wrapping
`e`. In both cases no spec is returned. -/
theorem parsePipeRename_field_error (pfn : fieldNameParser) (fieldName : Token → String)
    (kw : Token) (cs : List Clause) (fuel : Nat) (e : String)
    (hkw : lexer.isKeyword [kw] ["rename", "mv"] = true)
    (hcs : ∀ c ∈ cs, c.readBy pfn fieldName)
    (hfuel : cs.length < fuel) :
    (∀ (lex : lexer), pfn lex = .error e →
      parsePipeRename pfn fuel (kw :: (leadingTokens cs ++ lex)) =
        some (.error (.cannotParseSrcField e))) ∧
    (∀ (lex : lexer) (srcField : String) (rest : lexer), pfn lex = .ok (srcField, rest) →
      pfn (if lexer.isKeyword rest ["as"] then lexer.nextToken rest else rest) = .error e →
      parsePipeRename pfn fuel (kw :: (leadingTokens cs ++ lex)) =
        some (.error (.cannotParseDstField e))) := by
  obtain ⟨f, rfl⟩ := Nat.exists_eq_add_of_le (Nat.succ_le_of_lt hfuel)
  have hkw' : ∀ lex : lexer,
      lexer.isKeyword (kw :: (leadingTokens cs ++ lex)) ["rename", "mv"] = true := by
    intro lex
    rw [lexer.isKeyword_cons]; exact hkw
  have hfuel' : cs.length.succ + f = cs.length + (f + 1) := by omega
  constructor
  · intro lex hsrc
    simp only [parsePipeRename, hkw', Bool.not_true, Bool.false_eq_true, if_false]
    rw [hfuel', parsePipeRenameLoop_leading pfn fieldName cs hcs]
    simp [parsePipeRenameLoop, lexer.nextToken, hsrc]
  · intro lex srcField rest hsrc hdst
    simp only [parsePipeRename, hkw', Bool.not_true, Bool.false_eq_true, if_false]
    rw [hfuel', parsePipeRenameLoop_leading pfn fieldName cs hcs]
    simp [parsePipeRenameLoop, lexer.nextToken, hsrc]
    simp only [lexer.nextToken] at hdst
    rw [hdst]

/-- C10, at `rename x as y ,` and at `rename x as y , z as`, each followed by the
end of input. -/
theorem parsePipeRename_field_error_witness :
    (lexer.isKeyword [word "rename"] ["rename", "mv"] = true ∧
      (∀ c ∈ [Clause.mk (word "x") true (word "y")], c.readBy tokenFieldName Token.text) ∧
      [Clause.mk (word "x") true (word "y")].length < 2 ∧
      tokenFieldName [] = .error "unexpected token: " ∧
      tokenFieldName [word "z", word "as"] = .ok ("z", [word "as"])) ∧
    parsePipeRename tokenFieldName 2
        (word "rename" :: (leadingTokens [Clause.mk (word "x") true (word "y")] ++ [])) =
      some (.error (.cannotParseSrcField "unexpected token: ")) ∧
    parsePipeRename tokenFieldName 2
        (word "rename" ::
          (leadingTokens [Clause.mk (word "x") true (word "y")] ++ [word "z", word "as"])) =
      some (.error (.cannotParseDstField "unexpected token: ")) := by
  have h : ∀ c ∈ [Clause.mk (word "x") true (word "y")],
      c.readBy tokenFieldName Token.text := by
    intro c hc
    rw [List.mem_singleton] at hc
    subst hc
    exact ⟨fun _ => rfl, fun _ => rfl, rfl, rfl⟩
  have hthm := parsePipeRename_field_error tokenFieldName Token.text (word "rename")
    [Clause.mk (word "x") true (word "y")] 2 "unexpected token: " rfl h (by decide)
  exact ⟨⟨rfl, h, by decide, rfl, rfl⟩, hthm.1 [] rfl,
    hthm.2 [word "z", word "as"] "z" [word "as"] rfl rfl⟩

/-! ## The canonical string form: the rendering loop -/

/-- With a destination field for every source field left, the rendering loop
does not panic and appends the rendered pairs in order. -/
theorem renderPairs_ok (q : String → String) (dstFields : List String) :
    ∀ (srcFields : List String) (i : Nat) (a : List String),
      i + srcFields.length ≤ dstFields.length →
      renderPairs q dstFields srcFields i a =
        .ok (a ++ List.zipWith (fun s d => q s ++ " as " ++ q d) srcFields
          (dstFields.drop i)) := by
  intro srcFields
  induction srcFields with
  | nil => intro i a _; simp [renderPairs]
  | cons s rest ih =>
    intro i a hlen
    simp only [List.length_cons] at hlen
    have hi : i < dstFields.length := by omega
    have hdrop : dstFields.drop i = dstFields[i] :: dstFields.drop (i + 1) :=
      List.drop_eq_getElem_cons hi
    simp only [renderPairs, List.getElem?_eq_getElem hi]
    rw [ih (i + 1) _ (by omega), hdrop]
    simp only [List.zipWith_cons_cons, List.append_assoc, List.singleton_append]

/-- With fewer destination fields than source fields left, the rendering loop
panics at the first index past the end of `dstFields`. -/
theorem renderPairs_short (q : String → String) (dstFields : List String) :
    ∀ (srcFields : List String) (i : Nat) (a : List String),
      i ≤ dstFields.length → dstFields.length < i + srcFields.length →
      renderPairs q dstFields srcFields i a =
        .error (.indexOutOfRange dstFields.length dstFields.length) := by
  intro srcFields
  induction srcFields with
  | nil => intro i a h1 h2; simp at h2; omega
  | cons s rest ih =>
    intro i a h1 h2
    simp only [List.length_cons] at h2
    by_cases hi : i < dstFields.length
    · simp only [renderPairs, List.getElem?_eq_getElem hi]
      exact ih (i + 1) _ (by omega) (by omega)
    · have hi' : i = dstFields.length := by omega
      have hnone : dstFields[i]? = none := List.getElem?_eq_none (by omega)
      simp only [renderPairs, hnone]
      rw [hi']

theorem pipeRename_String_of_le (q : String → String) (pr : pipeRename)
    (hne : pr.srcFields ≠ []) (hlen : pr.srcFields.length ≤ pr.dstFields.length) :
    pipeRename_String q pr =
      .ok ("rename " ++ ", ".intercalate
        (List.zipWith (fun s d => q s ++ " as " ++ q d) pr.srcFields pr.dstFields)) := by
  have h0 : ¬ pr.srcFields.length = 0 := fun h => hne (List.length_eq_zero.1 h)
  simp only [pipeRename_String, h0, if_false]
  rw [renderPairs_ok q pr.dstFields pr.srcFields 0 [] (by omega)]
  simp

theorem pipeRename_String_of_nil (q : String → String) (pr : pipeRename)
    (hnil : pr.srcFields = []) :
    pipeRename_String q pr =
      .error (.bug "BUG: pipeRename must contain at least a single srcField") := by
  simp [pipeRename_String, hnil]

theorem pipeRename_String_of_gt (q : String → String) (pr : pipeRename)
    (hlen : pr.dstFields.length < pr.srcFields.length) :
    pipeRename_String q pr =
      .error (.indexOutOfRange pr.dstFields.length pr.dstFields.length) := by
  have h0 : ¬ pr.srcFields.length = 0 := by omega
  simp only [pipeRename_String, h0, if_false]
  rw [renderPairs_short q pr.dstFields pr.srcFields 0 [] (by omega) (by omega)]

/-! ## The processor and the string form: the stated properties -/

/-- C11 (as stated, refuted): for a processor built from the pair `(a,b)` and a
block with zero rows, `writeBlock` makes no call on the downstream processor,
so the block is not handed to it. -/
theorem writeBlock_empty_counterexample :
    (⟨[], fun _ => none⟩ : blockResult).timestamps = [] ∧
    ∀ (w : Nat) (b : blockResult),
      ppCall.writeBlock () w b ∉
        (pipeRenameProcessor.writeBlock blockResult.renameColumns
          (pipeRename.newPipeProcessor ⟨["a"], ["b"]⟩ ()) 0 ⟨[], fun _ => none⟩).2 :=
  ⟨rfl, fun _ _ h => List.not_mem_nil _ h⟩

/-- C11 (amended): zero-row blocks are dropped. For every processor and every
block with zero rows, `writeBlock` returns without making any call on the
downstream processor. -/
theorem writeBlock_empty_dropped {β : Type}
    (renameColumns : blockResult → List String → List String → blockResult)
    (prp : pipeRenameProcessor β) (workerID : Nat) (br : blockResult)
    (hrows : br.timestamps = []) :
    (prp.writeBlock renameColumns workerID br).2 = [] := by
  simp [pipeRenameProcessor.writeBlock, hrows]

/-- C11, at a block without rows. -/
theorem writeBlock_empty_dropped_witness :
    (⟨[], fun _ => none⟩ : blockResult).timestamps = [] ∧
    ((pipeRename.newPipeProcessor ⟨["a"], ["b"]⟩ ()).writeBlock
      blockResult.renameColumns 0 ⟨[], fun _ => none⟩).2 = [] :=
  ⟨rfl, writeBlock_empty_dropped blockResult.renameColumns
    (pipeRename.newPipeProcessor ⟨["a"], ["b"]⟩ ()) 0 ⟨[], fun _ => none⟩ rfl⟩

/-- C12: non-empty blocks are relabelled, then forwarded exactly once. For every
processor built from a spec `pr` and a downstream processor `d`, every worker
ID `w` and every block `br` with at least one row, the calls `writeBlock`
makes on downstream processors are exactly one call of `d.writeBlock`, with
`w` and with the block that `renameColumns` makes of `br` for the source and
destination fields of `pr`. -/
theorem writeBlock_forwards_once {β : Type}
    (renameColumns : blockResult → List String → List String → blockResult)
    (pr : pipeRename) (d : β) (w : Nat) (br : blockResult)
    (hrows : br.timestamps ≠ []) :
    (pr.newPipeProcessor d).writeBlock renameColumns w br =
      (renameColumns br pr.srcFields pr.dstFields,
        [ppCall.writeBlock d w (renameColumns br pr.srcFields pr.dstFields)]) := by
  have h0 : ¬ br.timestamps.length = 0 := fun h => hrows (List.length_eq_zero.1 h)
  simp [pipeRenameProcessor.writeBlock, pipeRename.newPipeProcessor, h0]

/-- C12, at the one-row block with column `a` and the pair `(a,b)`. -/
theorem writeBlock_forwards_once_witness :
    (oneColumnBlock "1").timestamps ≠ [] ∧
    (pipeRename.newPipeProcessor ⟨["a"], ["b"]⟩ ()).writeBlock
        blockResult.renameColumns 7 (oneColumnBlock "1") =
      ((oneColumnBlock "1").renameColumns ["a"] ["b"],
        [ppCall.writeBlock () 7 ((oneColumnBlock "1").renameColumns ["a"] ["b"])]) :=
  ⟨by decide, writeBlock_forwards_once blockResult.renameColumns ⟨["a"], ["b"]⟩ () 7
    (oneColumnBlock "1") (by decide)⟩

/-- C13: the empty-block short-circuit leaves the block alone. For every
processor and every block with zero rows, the block after `writeBlock` is the
block before it, whatever `renameColumns` would have made of it. -/
theorem writeBlock_empty_unchanged {β : Type}
    (renameColumns : blockResult → List String → List String → blockResult)
    (prp : pipeRenameProcessor β) (workerID : Nat) (br : blockResult)
    (hrows : br.timestamps = []) :
    (prp.writeBlock renameColumns workerID br).1 = br := by
  simp [pipeRenameProcessor.writeBlock, hrows]

/-- C13, at a block without rows and a relabelling that would empty the block. -/
theorem writeBlock_empty_unchanged_witness :
    (⟨[], fun _ => some []⟩ : blockResult).timestamps = [] ∧
    ((pipeRename.newPipeProcessor ⟨["a"], ["b"]⟩ ()).writeBlock
      (fun _ _ _ => ⟨[], fun _ => none⟩) 0 ⟨[], fun _ => some []⟩).1 =
        ⟨[], fun _ => some []⟩ :=
  ⟨rfl, writeBlock_empty_unchanged (fun _ _ _ => ⟨[], fun _ => none⟩)
    (pipeRename.newPipeProcessor ⟨["a"], ["b"]⟩ ()) 0 ⟨[], fun _ => some []⟩ rfl⟩

/-- C14: canonical form. For every spec with at least one pair and equally many
source and destination fields, `String()` returns `"rename "` followed by the
strings `quoteTokenIfNeeded(src) + " as " + quoteTokenIfNeeded(dst)` of the
pairs, in pair order, joined with `", "`. The keyword is always `rename` and
`as` is always written: the spec holds no trace of how it was written. -/
theorem pipeRename_String_canonical (quoteTokenIfNeeded : String → String) (pr : pipeRename)
    (hne : pr.srcFields ≠ []) (hlen : pr.srcFields.length = pr.dstFields.length) :
    pipeRename_String quoteTokenIfNeeded pr =
      .ok ("rename " ++ ", ".intercalate
        (List.zipWith (fun s d => quoteTokenIfNeeded s ++ " as " ++ quoteTokenIfNeeded d)
          pr.srcFields pr.dstFields)) :=
  pipeRename_String_of_le quoteTokenIfNeeded pr hne (le_of_eq hlen)

/-- C14, at the pairs `(a,b)` and `(c,d)`: the string is `rename a as b, c as d`. -/
theorem pipeRename_String_canonical_witness :
    ["a", "c"] ≠ ([] : List String) ∧ ["a", "c"].length = ["b", "d"].length ∧
    pipeRename_String id ⟨["a", "c"], ["b", "d"]⟩ =
      .ok ("rename " ++ ", ".intercalate
        (List.zipWith (fun s d => id s ++ " as " ++ id d) ["a", "c"] ["b", "d"])) ∧
    "rename " ++ ", ".intercalate
        (List.zipWith (fun s d => id s ++ " as " ++ id d) ["a", "c"] ["b", "d"]) =
      "rename a as b, c as d" :=
  ⟨by decide, by decide,
    pipeRename_String_canonical id ⟨["a", "c"], ["b", "d"]⟩ (by decide) (by decide), by decide⟩

/-- C15 (as stated, refuted): the spec with source fields `[a]` and destination
fields `[b, c]` has sequences of different lengths, and `String()` returns the
string `rename a as b` for it. -/
theorem pipeRename_String_mismatch_counterexample :
    ["a"].length ≠ ["b", "c"].length ∧
    pipeRename_String id ⟨["a"], ["b", "c"]⟩ = .ok "rename a as b" :=
  ⟨by decide, rfl⟩

/-- C15 (amended): for every spec whose source and destination fields differ in
number, `String()` halts with the `BUG` panic when there is no source field,
halts with an index-out-of-range panic when there are more source than
destination fields, and, when there is a source field and there are fewer
source than destination fields, returns the string of the first
`len(srcFields)` pairs. -/
theorem pipeRename_String_mismatch (quoteTokenIfNeeded : String → String) (pr : pipeRename)
    (_hne : pr.srcFields.length ≠ pr.dstFields.length) :
    (pr.srcFields = [] →
      pipeRename_String quoteTokenIfNeeded pr =
        .error (.bug "BUG: pipeRename must contain at least a single srcField")) ∧
    (pr.dstFields.length < pr.srcFields.length →
      pipeRename_String quoteTokenIfNeeded pr =
        .error (.indexOutOfRange pr.dstFields.length pr.dstFields.length)) ∧
    (pr.srcFields ≠ [] → pr.srcFields.length < pr.dstFields.length →
      pipeRename_String quoteTokenIfNeeded pr =
        .ok ("rename " ++ ", ".intercalate
          (List.zipWith (fun s d => quoteTokenIfNeeded s ++ " as " ++ quoteTokenIfNeeded d)
            pr.srcFields pr.dstFields))) :=
  ⟨pipeRename_String_of_nil quoteTokenIfNeeded pr,
    pipeRename_String_of_gt quoteTokenIfNeeded pr,
    fun hne hlt => pipeRename_String_of_le quoteTokenIfNeeded pr hne (le_of_lt hlt)⟩

/-- C15, at source fields `[a, x]` and destination fields `[b]`: the call panics
at index 1. -/
theorem pipeRename_String_mismatch_witness :
    ["a", "x"].length ≠ ["b"].length ∧ ["b"].length < ["a", "x"].length ∧
    pipeRename_String id ⟨["a", "x"], ["b"]⟩ = .error (.indexOutOfRange 1 1) :=
  ⟨by decide, by decide,
    (pipeRename_String_mismatch id ⟨["a", "x"], ["b"]⟩ (by decide)).2.1 (by decide)⟩

/-- C16: empty specs are rejected at serialization. Given at least as many
destination as source fields, `String()` panics if and only if there is no
source field, and the panic then reports the `BUG`; for every spec with at
least one pair and equally many source and destination fields it returns a
string. -/
theorem pipeRename_String_empty (quoteTokenIfNeeded : String → String) (pr : pipeRename) :
    (pr.srcFields.length ≤ pr.dstFields.length →
      ((∃ p, pipeRename_String quoteTokenIfNeeded pr = .error p) ↔ pr.srcFields = []) ∧
      (pr.srcFields = [] →
        pipeRename_String quoteTokenIfNeeded pr =
          .error (.bug "BUG: pipeRename must contain at least a single srcField"))) ∧
    (pr.srcFields ≠ [] → pr.srcFields.length = pr.dstFields.length →
      ∃ str, pipeRename_String quoteTokenIfNeeded pr = .ok str) := by
  refine ⟨fun hlen => ⟨⟨?_, ?_⟩, pipeRename_String_of_nil quoteTokenIfNeeded pr⟩, ?_⟩
  · rintro ⟨p, hp⟩
    by_contra hne
    rw [pipeRename_String_of_le quoteTokenIfNeeded pr hne hlen] at hp
    cases hp
  · intro hnil
    exact ⟨_, pipeRename_String_of_nil quoteTokenIfNeeded pr hnil⟩
  · intro hne hlen
    exact ⟨_, pipeRename_String_of_le quoteTokenIfNeeded pr hne (le_of_eq hlen)⟩

/-- C16, at the spec without pairs and at the spec with the pair `(a,b)`. -/
theorem pipeRename_String_empty_witness :
    (([] : List String).length ≤ ([] : List String).length ∧
      pipeRename_String id ⟨[], []⟩ =
        .error (.bug "BUG: pipeRename must contain at least a single srcField")) ∧
    (["a"] ≠ ([] : List String) ∧ ["a"].length = ["b"].length ∧
      ∃ str, pipeRename_String id ⟨["a"], ["b"]⟩ = .ok str) :=
  ⟨⟨by decide, ((pipeRename_String_empty id ⟨[], []⟩).1 (by decide)).2 rfl⟩,
    by decide, by decide, (pipeRename_String_empty id ⟨["a"], ["b"]⟩).2 (by decide) (by decide)⟩

/-- C17: `flush` always succeeds and has no effect. For every processor, `flush`
returns no error, makes no call on the downstream processor, and leaves the
processor, its spec and its downstream reference, as it was. -/
theorem flush_noop {β : Type} (prp : pipeRenameProcessor β) :
    prp.flush = (prp, [], none) ∧ prp.flush.1.pr = prp.pr ∧
      prp.flush.1.ppBase = prp.ppBase :=
  ⟨rfl, rfl, rfl⟩

/-! ## Field-usage propagation: whenever the call returns -/

/-- Whenever the counting loop returns, a source has a positive count exactly
when it had one before or one of the pairs walked has it as source and a
destination that is needed and not unneeded. -/
theorem countNeededSrc_some (srcFields : List String) (n u : fieldsSet) :
    ∀ (dstFields : List String) (i : Nat) (m0 m : String → Nat),
      countNeededSrc srcFields n u dstFields i m0 = some m →
      ∀ s, 0 < m s ↔ 0 < m0 s ∨ ∃ (j : Nat) (d : String), dstFields[j]? = some d ∧
        srcFields[i + j]? = some s ∧ liveDst n u d := by
  intro dstFields
  induction dstFields with
  | nil =>
    intro i m0 m h s
    simp only [countNeededSrc, Option.some.injEq] at h
    subst h
    simp
  | cons d rest ih =>
    intro i m0 m h s
    by_cases hlive : (fieldsSet.contains n d && !fieldsSet.contains u d) = true
    · cases hsrc : srcFields[i]? with
      | none => simp [countNeededSrc, hlive, hsrc] at h
      | some s0 =>
        simp only [countNeededSrc, hlive, if_true, hsrc] at h
        rw [ih (i + 1) _ m h s]
        constructor
        · rintro (h1 | ⟨j, d', hd, hs, hl⟩)
          · by_cases hs : s = s0
            · refine Or.inr ⟨0, d, by simp, ?_, (liveDst_iff n u d).1 hlive⟩
              simpa [hs] using hsrc
            · rw [Function.update_noteq hs] at h1
              exact Or.inl h1
          · refine Or.inr ⟨j + 1, d', by simpa using hd, ?_, hl⟩
            rw [← hs]
            congr 1
            omega
        · rintro (h1 | ⟨j, d', hd, hs, hl⟩)
          · left
            by_cases hs : s = s0
            · subst hs
              simp
            · rw [Function.update_noteq hs]
              exact h1
          · cases j with
            | zero =>
              left
              simp only [Nat.add_zero, hsrc, Option.some.injEq] at hs
              subst hs
              simp
            | succ k =>
              right
              refine ⟨k, d', by simpa using hd, ?_, hl⟩
              rw [← hs]
              congr 1
              omega
    · simp only [countNeededSrc, hlive, if_false] at h
      rw [ih (i + 1) m0 m h s]
      constructor
      · rintro (h1 | ⟨j, d', hd, hs, hl⟩)
        · exact Or.inl h1
        · refine Or.inr ⟨j + 1, d', by simpa using hd, ?_, hl⟩
          rw [← hs]
          congr 1
          omega
      · rintro (h1 | ⟨j, d', hd, hs, hl⟩)
        · exact Or.inl h1
        · cases j with
          | zero =>
            simp only [List.getElem?_cons_zero, Option.some.injEq] at hd
            subst hd
            exact absurd ((liveDst_iff n u d).2 hl) hlive
          | succ k =>
            right
            refine ⟨k, d', by simpa using hd, ?_, hl⟩
            rw [← hs]
            congr 1
            omega

/-- Whenever the call returns in the explicit branch, the unneeded fields are
cleared and a field is among the needed fields exactly when it is a source
with a counted destination or an old needed field that the spec does not
mention. -/
theorem updateNeededFields_explicit_some (pr : pipeRename) (n u n' u' : fieldsSet)
    (hw : fieldsSet.contains n "*" = false)
    (h : pr.updateNeededFields n u = some (n', u')) :
    u' = ∅ ∧
      ∀ f, f ∈ n' ↔ pr.liveSrc n u f ∨ (f ∉ pr.srcFields ∧ f ∈ n ∧ f ∉ pr.dstFields) := by
  unfold pipeRename.updateNeededFields at h
  cases hm : countNeededSrc pr.srcFields n u pr.dstFields 0 (fun _ => 0) with
  | none => simp [hm] at h
  | some m =>
    simp only [hm, hw, Bool.false_eq_true, if_false, Option.some.injEq, Prod.mk.injEq,
      fieldsSet.reset] at h
    obtain ⟨hn', hu'⟩ := h
    have hpos : ∀ s, 0 < m s ↔ pr.liveSrc n u s := by
      intro s
      rw [countNeededSrc_some pr.srcFields n u pr.dstFields 0 _ m hm s]
      unfold pipeRename.liveSrc
      constructor
      · rintro (h0 | ⟨j, d, hd, hs, hl⟩)
        · exact absurd h0 (lt_irrefl 0)
        · exact ⟨j, d, by simpa using hs, hd, hl⟩
      · rintro ⟨j, d, hs, hd, hl⟩
        exact Or.inr ⟨j, d, hd, by simpa using hs, hl⟩
    refine ⟨hu'.symm, fun f => ?_⟩
    rw [← hn', mem_moveNeededSrc, fieldsSet.mem_removeAll, hpos f]
    constructor
    · rintro (⟨_, h1⟩ | h1)
      · exact Or.inl h1
      · exact Or.inr h1
    · rintro (h1 | h1)
      · exact Or.inl ⟨pr.liveSrc_mem n u f h1, h1⟩
      · exact Or.inr h1

/-! ## Field-usage propagation: further stated properties -/

/-- C19: explicit mode stays a well-formed explicit-mode state. For every spec
none of whose field names is the wildcard and needed fields without the
wildcard, with arbitrary unneeded fields: the call returns when the spec has
a source field for every destination field, and whenever it returns, the
needed fields still do not contain the wildcard and the unneeded fields are
empty. -/
theorem updateNeededFields_explicit_wellformed (pr : pipeRename) (n u : fieldsSet)
    (hsrc : "*" ∉ pr.srcFields) (_hdst : "*" ∉ pr.dstFields)
    (hw : fieldsSet.contains n "*" = false) :
    (pr.dstFields.length ≤ pr.srcFields.length → ∃ r, pr.updateNeededFields n u = some r) ∧
    ∀ n' u', pr.updateNeededFields n u = some (n', u') →
      fieldsSet.contains n' "*" = false ∧ u' = ∅ := by
  constructor
  · intro hlen
    obtain ⟨n', hn', _⟩ := updateNeededFields_explicit pr n u hlen hw
    exact ⟨_, hn'⟩
  · intro n' u' h
    obtain ⟨hu', hmem⟩ := updateNeededFields_explicit_some pr n u n' u' hw h
    refine ⟨?_, hu'⟩
    rw [fieldsSet.contains_eq_false_iff]
    have hstar : "*" ∉ n' := by
      rw [hmem "*"]
      rintro (h1 | ⟨h1, _⟩)
      · exact hsrc (pr.liveSrc_mem n u "*" h1)
      · exact ((fieldsSet.contains_eq_false_iff n "*").1 hw).2 (by tauto)
    exact ⟨hstar, hstar⟩

/-- C19, at the pairs `(a,x)` and `(b,y)` with needed fields `{x, a}` and unneeded
fields `{q}`. -/
theorem updateNeededFields_explicit_wellformed_witness :
    "*" ∉ ["a", "b"] ∧ "*" ∉ ["x", "y"] ∧ fieldsSet.contains {"x", "a"} "*" = false ∧
    pipeRename.updateNeededFields ⟨["a", "b"], ["x", "y"]⟩ {"x", "a"} {"q"} =
      some ({"a"}, ∅) ∧
    (fieldsSet.contains {"a"} "*" = false ∧ (∅ : fieldsSet) = ∅) :=
  ⟨by decide, by decide, by decide, by decide,
    (updateNeededFields_explicit_wellformed ⟨["a", "b"], ["x", "y"]⟩ {"x", "a"} {"q"}
      (by decide) (by decide) (by decide)).2 {"a"} ∅ (by decide)⟩

/-- C20 (as stated, refuted): with the pair `("*","x")` and needed fields `{"x"}`,
the needed fields are `{"*"}` after the call, so the field `"z"`, which is not
the wildcard and not a source field, is in them although it was not needed
before. -/
theorem updateNeededFields_explicit_others_counterexample :
    fieldsSet.contains {"x"} "*" = false ∧
    pipeRename.updateNeededFields ⟨["*"], ["x"]⟩ {"x"} ∅ = some ({"*"}, ∅) ∧
    "z" ≠ "*" ∧ "z" ∉ ["*"] ∧
    fieldsSet.contains {"*"} "z" = true ∧
    ¬ (fieldsSet.contains {"x"} "z" = true ∧ "z" ∉ ["x"]) := by
  decide

/-- C20 (amended): explicit mode, non-source fields. For every spec none of whose
field names is the wildcard and needed fields without the wildcard: the call
returns when the spec has a source field for every destination field, and
whenever it returns, a non-wildcard field `f` that is not a source field of
any pair is in the needed fields afterwards if and only if `f` was in the
needed fields before and is not a destination field. -/
theorem updateNeededFields_explicit_others (pr : pipeRename) (n u : fieldsSet)
    (hsrc : "*" ∉ pr.srcFields) (_hdst : "*" ∉ pr.dstFields)
    (hw : fieldsSet.contains n "*" = false) :
    (pr.dstFields.length ≤ pr.srcFields.length → ∃ r, pr.updateNeededFields n u = some r) ∧
    ∀ n' u', pr.updateNeededFields n u = some (n', u') →
      ∀ f, f ≠ "*" → f ∉ pr.srcFields →
        (fieldsSet.contains n' f = true ↔
          (fieldsSet.contains n f = true ∧ f ∉ pr.dstFields)) := by
  constructor
  · intro hlen
    obtain ⟨n', hn', _⟩ := updateNeededFields_explicit pr n u hlen hw
    exact ⟨_, hn'⟩
  · intro n' u' h f _ hf
    obtain ⟨_, hmem⟩ := updateNeededFields_explicit_some pr n u n' u' hw h
    have hstar : "*" ∉ n := ((fieldsSet.contains_eq_false_iff n "*").1 hw).2
    rw [fieldsSet.contains_iff, fieldsSet.contains_iff, hmem f, hmem "*"]
    constructor
    · rintro ((h1 | ⟨_, h1, h2⟩) | (h1 | ⟨_, h1, _⟩))
      · exact absurd (pr.liveSrc_mem n u f h1) hf
      · exact ⟨Or.inl h1, h2⟩
      · exact absurd (pr.liveSrc_mem n u "*" h1) hsrc
      · exact absurd h1 hstar
    · rintro ⟨h1 | h1, h2⟩
      · exact Or.inl (Or.inr ⟨hf, h1, h2⟩)
      · exact absurd h1 hstar

/-- C20, at the pairs `(a,x)` and `(b,y)` with needed fields `{x, z}`: the field
`z` stays needed. -/
theorem updateNeededFields_explicit_others_witness :
    "*" ∉ ["a", "b"] ∧ "*" ∉ ["x", "y"] ∧
    fieldsSet.contains {"x", "z"} "*" = false ∧
    pipeRename.updateNeededFields ⟨["a", "b"], ["x", "y"]⟩ {"x", "z"} ∅ =
      some ({"a", "z"}, ∅) ∧
    (fieldsSet.contains {"a", "z"} "z" = true ↔
      (fieldsSet.contains {"x", "z"} "z" = true ∧ "z" ∉ ["x", "y"])) :=
  ⟨by decide, by decide, by decide, by decide,
    (updateNeededFields_explicit_others ⟨["a", "b"], ["x", "y"]⟩ {"x", "z"} ∅
      (by decide) (by decide) (by decide)).2 {"a", "z"} ∅ (by decide) "z"
      (by decide) (by decide)⟩

/-! ## Relabelling in order -/

theorem blockResult.renameColumn_columns (br : blockResult) (s d x : String) :
    (br.renameColumn s d).columns x =
      if x = d then br.columns s else if x = s then none else br.columns x := by
  unfold blockResult.renameColumn
  cases h : br.columns s with
  | none =>
    by_cases hxd : x = d
    · subst hxd
      simp
    · by_cases hxs : x = s
      · simp [Function.update_apply, hxd, hxs, h]
      · simp [Function.update_apply, hxd, hxs]
  | some c => simp [Function.update_apply]

/-- Relabelling in order moves the columns as `columnOrigin` moves the names. -/
theorem renameColumns_fold_origin (b : blockResult) :
    ∀ (ps : List (String × String)) (c : blockResult) (o : String → Option String),
      (∀ f, c.columns f = (o f).bind b.columns) →
      ∀ f, (ps.foldl (fun c p => c.renameColumn p.1 p.2) c).columns f =
        (ps.foldl originStep o f).bind b.columns := by
  intro ps
  induction ps with
  | nil => intro c o h f; exact h f
  | cons p rest ih =>
    intro c o h f
    rw [List.foldl_cons, List.foldl_cons]
    apply ih
    intro x
    rw [blockResult.renameColumn_columns, originStep, Function.update_apply,
      Function.update_apply]
    by_cases hxd : x = p.2
    · simp [hxd, h p.1]
    · by_cases hxs : x = p.1
      · subst hxs
        simp [hxd]
      · simp [hxd, hxs, h x]

theorem renameColumns_origin (b : blockResult) (srcFields dstFields : List String)
    (f : String) :
    (b.renameColumns srcFields dstFields).columns f =
      (columnOrigin srcFields dstFields f).bind b.columns :=
  renameColumns_fold_origin b (srcFields.zip dstFields) b some (fun _ => rfl) f

/-- A name that no pair mentions keeps its column. -/
theorem columnOrigin_untouched (f : String) :
    ∀ (ps : List (String × String)) (o : String → Option String),
      (∀ p ∈ ps, p.1 ≠ f ∧ p.2 ≠ f) →
      ps.foldl originStep o f = o f := by
  intro ps
  induction ps with
  | nil => intro o _; rfl
  | cons p rest ih =>
    intro o h
    obtain ⟨h1, h2⟩ := h p (List.mem_cons_self p rest)
    rw [List.foldl_cons, ih _ (fun q hq => h q (List.mem_cons_of_mem p hq)),
      originStep, Function.update_apply, Function.update_apply]
    simp [Ne.symm h1, Ne.symm h2]

/-! ## Propagation and relabelling -/

/-- Whenever the call returns for a spec with equally many source and
destination fields and no wildcard destination: every source with a counted
destination is required before the pipe, and so is every field required
after the pipe that the spec does not mention. -/
theorem updateNeededFields_required (pr : pipeRename) (n u n' u' : fieldsSet)
    (hlen : pr.srcFields.length = pr.dstFields.length)
    (hstar : "*" ∉ pr.dstFields)
    (hupd : pr.updateNeededFields n u = some (n', u')) :
    (∀ s, pr.liveSrc n u s → requiredField n' u' s) ∧
    (∀ f, f ∉ pr.srcFields → f ∉ pr.dstFields → requiredField n u f →
      requiredField n' u' f) := by
  cases hw : fieldsSet.contains n "*" with
  | false =>
    obtain ⟨hu', hmem⟩ := updateNeededFields_explicit_some pr n u n' u' hw hupd
    subst hu'
    have hempty : ∀ f, fieldsSet.contains (∅ : fieldsSet) f = false := by
      intro f; simp [fieldsSet.contains]
    have hnstar : "*" ∉ n := ((fieldsSet.contains_eq_false_iff n "*").1 hw).2
    constructor
    · intro s hs
      exact ⟨(fieldsSet.contains_iff n' s).2 (Or.inl ((hmem s).2 (Or.inl hs))), hempty s⟩
    · intro f hfs hfd hreq
      have hfn : f ∈ n := ((fieldsSet.contains_iff n f).1 hreq.1).elim id
        (fun h => absurd h hnstar)
      exact ⟨(fieldsSet.contains_iff n' f).2 (Or.inl ((hmem f).2 (Or.inr ⟨hfs, hfn, hfd⟩))),
        hempty f⟩
  | true =>
    obtain ⟨u0, h0, hmem⟩ := updateNeededFields_wildcard pr n u (le_of_eq hlen.symm) hw
    rw [h0] at hupd
    simp only [Option.some.injEq, Prod.mk.injEq] at hupd
    obtain ⟨hn', hu'⟩ := hupd
    subst hn' hu'
    have hall : ∀ f, fieldsSet.contains n f = true := by
      intro f
      rw [fieldsSet.contains_iff]
      exact Or.inr (((fieldsSet.contains_iff n "*").1 hw).elim id id)
    have hkeep : ∀ f, "*" ∉ u → f ∉ u → (f ∈ pr.dstFields → pr.liveSrc n u f) →
        fieldsSet.contains u0 f = false := by
      intro f hus hfu hfd
      rw [fieldsSet.contains_eq_false_iff]
      constructor
      · intro h
        obtain ⟨h1, h2⟩ := (hmem f).1 h
        rcases h1 with h1 | h1
        · exact hfu h1
        · exact h2 (hfd h1)
      · intro h
        obtain ⟨h1, _⟩ := (hmem "*").1 h
        rcases h1 with h1 | h1
        · exact hus h1
        · exact hstar h1
    constructor
    · intro s hs
      obtain ⟨i, d, _, _, hl⟩ := id hs
      have hus : "*" ∉ u := ((fieldsSet.contains_eq_false_iff u d).1 hl.2).2
      refine ⟨hall s, ?_⟩
      rw [fieldsSet.contains_eq_false_iff]
      constructor
      · intro h
        exact ((hmem s).1 h).2 hs
      · intro h
        obtain ⟨h1, _⟩ := (hmem "*").1 h
        rcases h1 with h1 | h1
        · exact hus h1
        · exact hstar h1
    · intro f _ hfd hreq
      obtain ⟨hfu, hus⟩ := (fieldsSet.contains_eq_false_iff u f).1 hreq.2
      exact ⟨hall f, hkeep f hus hfu (fun h => absurd h hfd)⟩

/-! ## Propagation and relabelling: the stated property -/

/-- C18 (as stated, refuted): two cases. For the chain with pairs `(a,b)` and
`(b,c)` and needed fields `{c}`, the fields required before the pipe are
those in `{b}`; the one-row blocks with the single column `a` holding `1` and
holding `2` agree on every such field, yet after the pairs are applied in
order they differ on the column `c`, which is required after the pipe. For
the pair `(a,"*")` with needed fields `{"*"}` and no unneeded fields, the
unneeded fields become `{"*"}`, so no field is required before the pipe; two
blocks that differ on the column `z` still differ on it after the pair is
applied, and `z` is required after the pipe. -/
theorem updateNeededFields_sound_counterexample :
    (pipeRename.updateNeededFields ⟨["a", "b"], ["b", "c"]⟩ {"c"} ∅ = some ({"b"}, ∅) ∧
      (∀ f, requiredField {"b"} ∅ f →
        (oneColumnBlock "1").columns f = (oneColumnBlock "2").columns f) ∧
      requiredField {"c"} ∅ "c" ∧
      ((oneColumnBlock "1").renameColumns ["a", "b"] ["b", "c"]).columns "c" ≠
        ((oneColumnBlock "2").renameColumns ["a", "b"] ["b", "c"]).columns "c") ∧
    (pipeRename.updateNeededFields ⟨["a"], ["*"]⟩ {"*"} ∅ = some ({"*"}, {"*"}) ∧
      (∀ f, requiredField {"*"} {"*"} f →
        (twoColumnBlock "1" "8").columns f = (twoColumnBlock "1" "9").columns f) ∧
      requiredField {"*"} ∅ "z" ∧
      ((twoColumnBlock "1" "8").renameColumns ["a"] ["*"]).columns "z" ≠
        ((twoColumnBlock "1" "9").renameColumns ["a"] ["*"]).columns "z") := by
  refine ⟨⟨by decide, ?_, ⟨by decide, by decide⟩, by decide⟩,
    ⟨by decide, ?_, ⟨by decide, by decide⟩, by decide⟩⟩
  · intro f hf
    have hfb : f = "b" := by
      have h := (fieldsSet.contains_iff {"b"} f).1 hf.1
      simp only [Finset.mem_singleton] at h
      rcases h with h | h
      · exact h
      · exact absurd h (by decide)
    subst hfb
    decide
  · intro f hf
    have h : fieldsSet.contains {"*"} f = true :=
      (fieldsSet.contains_iff {"*"} f).2 (Or.inr (by decide))
    rw [hf.2] at h
    cases h

/-- C18 (amended): propagation is sound for column pruning with respect to the
in-order relabelling, for specs whose pairs act one by one. Take a spec with
equally many source and destination fields, none of whose field names is the
wildcard, such that after the pairs are applied in order every column known
by a name the spec mentions is the input column of a source field paired
with that name (this leaves out chains and swaps, and keeps specs such as
`[(a,b),(z,a)]`). Whenever the call returns and two input blocks agree on
every column required before the pipe, the two blocks obtained by applying
the pairs in order agree on every column required after the pipe. -/
theorem updateNeededFields_sound (pr : pipeRename) (n u n' u' : fieldsSet)
    (b1 b2 : blockResult)
    (hlen : pr.srcFields.length = pr.dstFields.length)
    (_hsrc : "*" ∉ pr.srcFields) (hdst : "*" ∉ pr.dstFields)
    (hpairs : pr.actsPairwise)
    (hupd : pr.updateNeededFields n u = some (n', u'))
    (hagree : ∀ f, requiredField n' u' f → b1.columns f = b2.columns f) :
    ∀ f, requiredField n u f →
      (b1.renameColumns pr.srcFields pr.dstFields).columns f =
        (b2.renameColumns pr.srcFields pr.dstFields).columns f := by
  obtain ⟨hlive, hother⟩ := updateNeededFields_required pr n u n' u' hlen hdst hupd
  intro f hreq
  rw [renameColumns_origin, renameColumns_origin]
  cases ho : columnOrigin pr.srcFields pr.dstFields f with
  | none => rfl
  | some g =>
    show b1.columns g = b2.columns g
    by_cases hf : f ∈ pr.srcFields ++ pr.dstFields
    · have hp : (g, f) ∈ pr.srcFields.zip pr.dstFields := hpairs f hf g ho
      obtain ⟨i, hi⟩ := List.mem_iff_getElem?.1 hp
      obtain ⟨h1, h2⟩ := List.getElem?_zip_eq_some.1 hi
      exact hagree g (hlive g ⟨i, f, h1, h2, hreq⟩)
    · have hfs : f ∉ pr.srcFields := fun h => hf (List.mem_append_left _ h)
      have hfd : f ∉ pr.dstFields := fun h => hf (List.mem_append_right _ h)
      have hsame : columnOrigin pr.srcFields pr.dstFields f = some f := by
        unfold columnOrigin
        apply columnOrigin_untouched f
        intro p hp
        exact ⟨fun h => hfs (h ▸ (List.of_mem_zip hp).1),
          fun h => hfd (h ▸ (List.of_mem_zip hp).2)⟩
      rw [hsame] at ho
      cases ho
      exact hagree f (hother f hfs hfd hreq)

/-- C18, at the pairs `(a,b)` and `(z,a)` with needed fields `{b}` and two blocks
that agree on the column `a` and differ on the column `z`. -/
theorem updateNeededFields_sound_witness :
    ([("a" : String), "z"].length = ["b", "a"].length ∧
      "*" ∉ ["a", "z"] ∧ "*" ∉ ["b", "a"] ∧
      pipeRename.actsPairwise ⟨["a", "z"], ["b", "a"]⟩ ∧
      pipeRename.updateNeededFields ⟨["a", "z"], ["b", "a"]⟩ {"b"} ∅ = some ({"a"}, ∅) ∧
      (∀ f, requiredField {"a"} ∅ f →
        (twoColumnBlock "1" "8").columns f = (twoColumnBlock "1" "9").columns f)) ∧
    ∀ f, requiredField {"b"} ∅ f →
      ((twoColumnBlock "1" "8").renameColumns ["a", "z"] ["b", "a"]).columns f =
        ((twoColumnBlock "1" "9").renameColumns ["a", "z"] ["b", "a"]).columns f := by
  have hagree : ∀ f, requiredField {"a"} ∅ f →
      (twoColumnBlock "1" "8").columns f = (twoColumnBlock "1" "9").columns f := by
    intro f hf
    have hfa : f = "a" := by
      have h := (fieldsSet.contains_iff {"a"} f).1 hf.1
      simp only [Finset.mem_singleton] at h
      rcases h with h | h
      · exact h
      · exact absurd h (by decide)
    subst hfa
    decide
  have hpairs : pipeRename.actsPairwise ⟨["a", "z"], ["b", "a"]⟩ := by
    unfold pipeRename.actsPairwise
    decide
  exact ⟨⟨by decide, by decide, by decide, hpairs, by decide, hagree⟩,
    updateNeededFields_sound ⟨["a", "z"], ["b", "a"]⟩ {"b"} ∅ {"a"} ∅
      (twoColumnBlock "1" "8") (twoColumnBlock "1" "9")
      (by decide) (by decide) (by decide) hpairs (by decide) hagree⟩

end logstorage
